import Mathlib

set_option maxRecDepth 10000

/-!
Verification of the log-structured key-value storage engine in
`bndrchuk-artem/trenbolonchiki-lab5` (package `datastore`, files
`entry.go` and `db.go`).

Modelling conventions:
* Go strings and byte slices are byte lists, `List Nat`, with each element
  intended to be `< 256`.  All 32-bit length prefixes are little-endian and
  are reduced modulo `2 ^ 32` exactly where the Go code casts to `uint32`.
* The record codec (`Encode`, `Decode`, `readValue`, `GetLength`,
  `verifyChecksum` from `entry.go`) is embedded at the byte level, with a
  complete executable SHA-1.
* Go code paths that would panic (out-of-range slicing in `Decode`) are
  modelled as `Option.none`; fallible streaming reads return `Except`.
* The `bufio.Reader` built by `readFromSegment` is modelled explicitly
  (`BufReader`): a 4096-byte buffer (the `bufio.NewReader` default) over
  the remaining file bytes, with `Peek`, `Discard` and `Read` following
  the `bufio` semantics.  In particular `Read` performs at most one
  underlying read, so with a nonempty buffer it delivers at most the
  buffered bytes — a record whose encoding exceeds the buffer is not
  readable back in one `readValue` call.  Reads from the underlying
  regular file are assumed complete: they return
  `min(requested, remaining)` bytes, the behaviour of `os.File.Read` on
  a regular file.
-/

/-- Error kinds surfaced by the engine (spec section 7).  The Go code reports
errors as `fmt.Errorf` values; we classify them by the source line that
produces them.  `storeClosed` is modelled from the spec: the spec names a
`StoreClosed` error for mutations after close, but no code path in
`db.go` produces such an error (`Close` only closes the active file). -/
inductive DbError where
  | keyNotFound
  | checksumMismatch
  | ioError
  | corruptRecord
  | storeClosed
  deriving DecidableEq, Repr

/-! ## Little-endian 32-bit integers (`encoding/binary` LittleEndian) -/

/-- `binary.LittleEndian.PutUint32`: the four little-endian bytes of
`n % 2 ^ 32` (the Go code casts `int` sizes to `uint32` before writing). -/
def u32le (n : Nat) : List Nat :=
  [n % 256, n / 256 % 256, n / 65536 % 256, n / 16777216 % 256]

/-- `binary.LittleEndian.Uint32` on the first four bytes of a stream.  The
Go function panics when fewer than four bytes are available; every call
site modelled here checks the length first, so the catch-all branch is
unreachable in those contexts. -/
def readU32 : List Nat → Nat
  | b0 :: b1 :: b2 :: b3 :: _ => b0 + 256 * b1 + 65536 * b2 + 16777216 * b3
  | _ => 0

theorem u32le_length (n : Nat) : (u32le n).length = 4 := rfl

theorem readU32_u32le (n : Nat) (rest : List Nat) :
    readU32 (u32le n ++ rest) = n % 4294967296 := by
  simp only [u32le, List.cons_append, List.nil_append, readU32]
  omega

/-! ## SHA-1 (`crypto/sha1`), executable at the byte level -/

/-- Rotate a 32-bit word left by `s` bits (for `x < 2 ^ 32`, `0 < s < 32`). -/
def rotl32 (s x : Nat) : Nat :=
  (x * 2 ^ s + x / 2 ^ (32 - s)) % 4294967296

/-- The SHA-1 round function for round `i`. -/
def sha1F (i b c d : Nat) : Nat :=
  if i < 20 then (b &&& c) ||| ((b ^^^ 4294967295) &&& d)
  else if i < 40 then b ^^^ c ^^^ d
  else if i < 60 then (b &&& c) ||| (b &&& d) ||| (c &&& d)
  else b ^^^ c ^^^ d

/-- The SHA-1 round constant for round `i`. -/
def sha1K (i : Nat) : Nat :=
  if i < 20 then 1518500249
  else if i < 40 then 1859775393
  else if i < 60 then 2400959708
  else 3395469782

/-- Big-endian bytes of a 32-bit word. -/
def toBE32 (n : Nat) : List Nat :=
  [n / 16777216 % 256, n / 65536 % 256, n / 256 % 256, n % 256]

/-- Big-endian bytes of a 64-bit word. -/
def toBE64 (n : Nat) : List Nat :=
  [n / 72057594037927936 % 256, n / 281474976710656 % 256,
   n / 1099511627776 % 256, n / 4294967296 % 256,
   n / 16777216 % 256, n / 65536 % 256, n / 256 % 256, n % 256]

/-- Group a byte stream into big-endian 32-bit words. -/
def toWordsBE : List Nat → List Nat
  | a :: b :: c :: d :: rest => (16777216 * a + 65536 * b + 256 * c + d) :: toWordsBE rest
  | _ => []

/-- Extend the sixteen words of a block to the eighty-word message
schedule: `w[i] = rotl1 (w[i-3] xor w[i-8] xor w[i-14] xor w[i-16])`. -/
def sha1Ws (block : List Nat) : List Nat :=
  (List.range 64).foldl
    (fun w _ =>
      w ++ [rotl32 1
        ((w.getD (w.length - 3) 0) ^^^ (w.getD (w.length - 8) 0) ^^^
         (w.getD (w.length - 14) 0) ^^^ (w.getD (w.length - 16) 0))])
    (toWordsBE block)

/-- The five-word SHA-1 state. -/
structure H5 where
  a : Nat
  b : Nat
  c : Nat
  d : Nat
  e : Nat
  deriving Repr

/-- One SHA-1 round: input is the round index paired with the schedule word. -/
def sha1Step (st : H5) (iw : Nat × Nat) : H5 :=
  { a := (rotl32 5 st.a + sha1F iw.1 st.b st.c st.d + st.e + sha1K iw.1 + iw.2) % 4294967296
    b := st.a
    c := rotl32 30 st.b
    d := st.c
    e := st.d }

/-- Process one 64-byte block. -/
def sha1Block (h : H5) (block : List Nat) : H5 :=
  let f := (sha1Ws block).enum.foldl (fun st p => sha1Step st (p.1, p.2)) h
  { a := (h.a + f.a) % 4294967296
    b := (h.b + f.b) % 4294967296
    c := (h.c + f.c) % 4294967296
    d := (h.d + f.d) % 4294967296
    e := (h.e + f.e) % 4294967296 }

/-- Merkle-Damgard padding: `0x80`, zeros to 56 mod 64, then the bit length
as a big-endian 64-bit integer. -/
def sha1Pad (msg : List Nat) : List Nat :=
  msg ++ 128 :: (List.replicate ((119 - msg.length % 64) % 64) 0 ++
    toBE64 (8 * msg.length % 18446744073709551616))

/-- Split a stream into 64-byte blocks (the first argument is fuel, always
instantiated with the stream length). -/
def sha1Chunks : Nat → List Nat → List (List Nat)
  | 0, _ => []
  | _, [] => []
  | fuel + 1, l => l.take 64 :: sha1Chunks fuel (l.drop 64)

/-- `sha1.Sum`: the 20-byte SHA-1 digest of a byte stream. -/
def sha1 (msg : List Nat) : List Nat :=
  let padded := sha1Pad msg
  let h := (sha1Chunks padded.length padded).foldl sha1Block
    ⟨1732584193, 4023233417, 2562383102, 271733878, 3285377520⟩
  toBE32 h.a ++ toBE32 h.b ++ toBE32 h.c ++ toBE32 h.d ++ toBE32 h.e

theorem sha1_length (msg : List Nat) : (sha1 msg).length = 20 := by
  simp [sha1, toBE32]

/-! ## The record codec (`entry.go`) -/

/-- `calculateEntryLength` / `(*entry).GetLength`: the encoded size of a
record, `len(key) + len(value) + totalHeaderSize` with
`totalHeaderSize = 4 + 4 + 4 + 20 = 32`. -/
def calculateEntryLength (key value : List Nat) : Nat :=
  key.length + value.length + 32

/-- `(*entry).Encode`: `total_size (4) ++ key_length (4) ++ key ++
value_length (4) ++ value ++ sha1(value) (20)`, all lengths little-endian
`uint32` (hence reduced mod `2 ^ 32`). -/
def encode (key value : List Nat) : List Nat :=
  u32le (key.length + value.length + 32) ++ u32le key.length ++ key ++
    u32le value.length ++ value ++ sha1 value

/-- `(*entry).verifyChecksum`: recompute SHA-1 of the value and compare with
the stored digest; mismatch is the checksum-mismatch error. -/
def verifyChecksum (key value checksum : List Nat) : Except DbError Unit :=
  if sha1 value = checksum then Except.ok () else Except.error DbError.checksumMismatch

/-- `(*entry).Decode`: parse `(key, value, checksum)` out of a record buffer.
Every byte access happens at offset `≥ 4`, through `tail = data[4:]`.
Accesses that would make the Go code panic (slicing past the end) are
`none`.  The `total_size` field `data[0:4]` is never inspected. -/
def decode (data : List Nat) : Option (List Nat × List Nat × List Nat) :=
  if data.length < 8 then none
  else
    let tail := data.drop 4
    -- keyLength := binary.LittleEndian.Uint32(data[4:])
    let keyLength := readU32 tail
    if data.length < 8 + keyLength then none
    else
      -- key := data[8 : 8+keyLength]
      let key := (tail.drop 4).take keyLength
      if data.length < 12 + keyLength then none
      else
        -- valueLength := binary.LittleEndian.Uint32(data[8+keyLength:])
        let valueLength := readU32 (tail.drop (4 + keyLength))
        if data.length < 12 + keyLength + valueLength then none
        else
          -- value := data[12+keyLength : 12+keyLength+valueLength]
          let value := (tail.drop (8 + keyLength)).take valueLength
          if data.length < 32 + keyLength + valueLength then none
          else
            -- checksum := data[12+kl+vl : 32+kl+vl]
            some (key, value, (tail.drop (8 + keyLength + valueLength)).take 20)

/-- Errors of the streaming reader `readValue`. -/
inductive RVErr where
  | eof
  | incompleteValue
  | incompleteChecksum
  | checksumMismatch
  deriving DecidableEq, Repr

/-! ## Generic list helpers -/

theorem drop_len_append {α : Type} (l₁ l₂ : List α) (n : Nat) (h : l₁.length = n) :
    (l₁ ++ l₂).drop n = l₂ := by
  subst h; simp

theorem take_len_append {α : Type} (l₁ l₂ : List α) (n : Nat) (h : l₁.length = n) :
    (l₁ ++ l₂).take n = l₁ := by
  subst h; simp

theorem drop_len_append_add {α : Type} (l₁ l₂ : List α) (n m : Nat) (h : l₁.length = n) :
    (l₁ ++ l₂).drop (n + m) = l₂.drop m := by
  induction l₁ generalizing n with
  | nil => simp at h; subst h; simp
  | cons a t ih =>
    subst h
    have he : t.length + 1 + m = (t.length + m) + 1 := by omega
    simp only [List.length_cons, List.cons_append, he, List.drop_succ_cons]
    exact ih _ rfl

theorem encode_length (key value : List Nat) :
    (encode key value).length = key.length + value.length + 32 := by
  simp [encode, u32le, sha1_length]
  omega

/-- The right-associated shape of a record buffer whose trailing part `w`
holds the digest (and possibly further stream bytes after it). -/
def recFrame (k v w : List Nat) : List Nat :=
  u32le (k.length + v.length + 32) ++
    (u32le k.length ++ (k ++ (u32le v.length ++ (v ++ w))))

theorem encode_eq_recFrame (k v : List Nat) : encode k v = recFrame k v (sha1 v) := by
  simp [encode, recFrame, List.append_assoc]

theorem encode_append_eq_recFrame (k v extra : List Nat) :
    encode k v ++ extra = recFrame k v (sha1 v ++ extra) := by
  simp [encode, recFrame, List.append_assoc]

theorem recFrame_length (k v w : List Nat) :
    (recFrame k v w).length = k.length + v.length + 12 + w.length := by
  simp [recFrame, u32le]
  omega

theorem recFrame_drop4 (k v w : List Nat) :
    (recFrame k v w).drop 4 = u32le k.length ++ (k ++ (u32le v.length ++ (v ++ w))) :=
  drop_len_append _ _ _ rfl

theorem recTail_drop4 (k v w : List Nat) :
    (u32le k.length ++ (k ++ (u32le v.length ++ (v ++ w)))).drop 4 =
      k ++ (u32le v.length ++ (v ++ w)) :=
  drop_len_append _ _ _ rfl

theorem recTail_drop_key (k v w : List Nat) :
    (u32le k.length ++ (k ++ (u32le v.length ++ (v ++ w)))).drop (4 + k.length) =
      u32le v.length ++ (v ++ w) := by
  rw [drop_len_append_add (u32le k.length) _ 4 k.length rfl]
  exact drop_len_append _ _ _ rfl

theorem recTail_drop_keyval (k v w : List Nat) :
    (u32le k.length ++ (k ++ (u32le v.length ++ (v ++ w)))).drop (8 + k.length) =
      v ++ w := by
  have h8 : 8 + k.length = 4 + (k.length + 4) := by omega
  rw [h8, drop_len_append_add (u32le k.length) _ 4 _ rfl,
      drop_len_append_add k _ k.length 4 rfl,
      drop_len_append (u32le v.length) _ 4 rfl]

theorem recTail_drop_checksum (k v w : List Nat) :
    (u32le k.length ++ (k ++ (u32le v.length ++ (v ++ w)))).drop
        (8 + k.length + v.length) = w := by
  have h8 : 8 + k.length + v.length = 4 + (k.length + (4 + v.length)) := by omega
  rw [h8, drop_len_append_add (u32le k.length) _ 4 _ rfl,
      drop_len_append_add k _ k.length _ rfl,
      drop_len_append_add (u32le v.length) _ 4 _ rfl,
      drop_len_append v _ v.length rfl]

/-- `Decode` of a well-formed record frame recovers the key, the value and
the first 20 trailing bytes, provided the length fields do not overflow
`uint32`. -/
theorem decode_recFrame (k v w : List Nat) (hk : k.length < 4294967296)
    (hv : v.length < 4294967296) (hw : 20 ≤ w.length) :
    decode (recFrame k v w) = some (k, v, w.take 20) := by
  simp only [decode, recFrame_length, recFrame_drop4, readU32_u32le,
    Nat.mod_eq_of_lt hk, recTail_drop4, recTail_drop_key, recTail_drop_keyval,
    recTail_drop_checksum, Nat.mod_eq_of_lt hv,
    take_len_append k _ k.length rfl, take_len_append v _ v.length rfl]
  repeat rw [if_neg (by omega)]

/-! ## bufio.Reader model -/

/-- A `bufio.Reader` over a file suffix: `data` holds the underlying file
bytes not yet read by the reader, `buf` the buffered bytes not yet
delivered to the caller.  The buffer capacity is `bufio`'s default of
4096 bytes. -/
structure BufReader where
  data : List Nat
  buf : List Nat
  deriving DecidableEq, Repr

/-- `(*bufio.Reader).fill`: one underlying read into the free buffer
space.  A regular file returns all requested bytes that exist. -/
def fill (r : BufReader) : BufReader :=
  ⟨r.data.drop (4096 - r.buf.length), r.buf ++ r.data.take (4096 - r.buf.length)⟩

/-- The fill-on-demand step of `Peek(n)` for `n ≤ 4096`: with complete
file reads a single `fill` buffers everything `Peek`'s loop can get. -/
def ensure (r : BufReader) (n : Nat) : BufReader :=
  if r.buf.length < n then fill r else r

/-- `(*bufio.Reader).Peek(n)` for `n ≤ 4096`: the first `n` buffered
bytes, without consuming them; an error when the stream ends first. -/
def BufReader.peek (r : BufReader) (n : Nat) : Except RVErr (List Nat × BufReader) :=
  if (ensure r n).buf.length < n then Except.error RVErr.eof
  else Except.ok ((ensure r n).buf.take n, ensure r n)

/-- The loop of `(*bufio.Reader).Discard`: per iteration, skip up to the
buffered byte count, refilling an empty buffer first; fail when the
stream ends early.  The first argument is fuel: every iteration either
consumes at least one byte or is immediately followed by one that does,
so `2 * n + 2` strictly bounds the iteration count and the fuel never
runs out. -/
def discardLoop : Nat → Nat → BufReader → Except RVErr BufReader
  | 0, _, _ => Except.error RVErr.eof
  | fuel + 1, n, r =>
    if n ≤ r.buf.length then Except.ok ⟨r.data, r.buf.drop n⟩
    else if r.buf.length = 0 then
      if r.data.length = 0 then Except.error RVErr.eof
      else discardLoop fuel n (fill r)
    else discardLoop fuel (n - r.buf.length) ⟨r.data, []⟩

/-- `(*bufio.Reader).Discard(n)`. -/
def BufReader.discard (r : BufReader) (n : Nat) : Except RVErr BufReader :=
  discardLoop (2 * n + 2) n r

/-- `(*bufio.Reader).Read(p)` with `n = len(p)`: at most ONE underlying
read.  A nonempty buffer yields `min(n, buffered)` bytes — never more;
with an empty buffer, a request of at least the buffer size reads the
file directly, and a smaller one refills the buffer first.  At end of
stream the read returns the `io.EOF` error. -/
def BufReader.read (r : BufReader) (n : Nat) : Except RVErr (List Nat × BufReader) :=
  if n = 0 then Except.ok ([], r)
  else if r.buf.length = 0 then
    if r.data.length = 0 then Except.error RVErr.eof
    else if 4096 ≤ n then Except.ok (r.data.take n, ⟨r.data.drop n, []⟩)
    else Except.ok ((fill r).buf.take n, ⟨(fill r).data, (fill r).buf.drop n⟩)
  else Except.ok (r.buf.take n, ⟨r.data, r.buf.drop n⟩)

/-- `readValue` (`entry.go`), on a `bufio.Reader`: peek the first eight
bytes (`total_size`, `key_length`); `Discard(8 + keySize)`; peek and
discard the four `value_length` bytes; `Read` the value in a single
call, failing with the incomplete-value-read error when it returns
fewer than `valueSize` bytes; `Read` the stored 20-byte digest in a
single call, failing with the incomplete-checksum-read error when
short; finally fail with the checksum-mismatch error iff
`sha1(value) ≠ digest`.  Bytes `0..3` (`total_size`) are never
inspected. -/
def readValueR (r0 : BufReader) : Except RVErr (List Nat) :=
  match r0.peek 8 with
  | Except.error e => Except.error e
  | Except.ok (hdr, r1) =>
    let keySize := readU32 (hdr.drop 4)
    match r1.discard (8 + keySize) with
    | Except.error e => Except.error e
    | Except.ok r2 =>
      match r2.peek 4 with
      | Except.error e => Except.error e
      | Except.ok (vsz, r3) =>
        let valueSize := readU32 vsz
        match r3.discard 4 with
        | Except.error e => Except.error e
        | Except.ok r4 =>
          match r4.read valueSize with
          | Except.error e => Except.error e
          | Except.ok (valueData, r5) =>
            if valueData.length ≠ valueSize then Except.error RVErr.incompleteValue
            else
              match r5.read 20 with
              | Except.error e => Except.error e
              | Except.ok (stored, _) =>
                if stored.length ≠ 20 then Except.error RVErr.incompleteChecksum
                else if sha1 valueData = stored then Except.ok valueData
                else Except.error RVErr.checksumMismatch

/-- `readValue` applied to a fresh `bufio.NewReader` over a byte stream —
the composition that `readFromSegment` builds after seeking. -/
def readValue (data : List Nat) : Except RVErr (List Nat) :=
  readValueR ⟨data, []⟩

/-! ## Behaviour of the reader operations on concrete states -/

theorem ensure_fresh (S : List Nat) (n : Nat) (h : 0 < n) :
    ensure ⟨S, []⟩ n = ⟨S.drop 4096, S.take 4096⟩ := by
  unfold ensure fill
  rw [if_pos (show ([] : List Nat).length < n by simpa using h)]
  simp

theorem ensure_buffered (D B : List Nat) (n : Nat) (h : n ≤ B.length) :
    ensure ⟨D, B⟩ n = ⟨D, B⟩ := by
  unfold ensure
  rw [if_neg (show ¬ (⟨D, B⟩ : BufReader).buf.length < n by simpa using by omega)]

theorem peek8_fresh (S : List Nat) (h : 8 ≤ S.length) :
    BufReader.peek ⟨S, []⟩ 8 = Except.ok (S.take 8, ⟨S.drop 4096, S.take 4096⟩) := by
  have hl : (S.take 4096).length = min 4096 S.length := List.length_take ..
  unfold BufReader.peek
  rw [ensure_fresh S 8 (by omega)]
  rw [if_neg (show ¬ (⟨S.drop 4096, S.take 4096⟩ : BufReader).buf.length < 8 from by
    show ¬ (S.take 4096).length < 8
    omega)]
  rw [show (⟨S.drop 4096, S.take 4096⟩ : BufReader).buf.take 8 = (S.take 4096).take 8 from rfl,
    List.take_take, Nat.min_eq_left (by omega)]

theorem peek8_fresh_short (S : List Nat) (h : S.length < 8) :
    BufReader.peek ⟨S, []⟩ 8 = Except.error RVErr.eof := by
  have hl : (S.take 4096).length = min 4096 S.length := List.length_take ..
  unfold BufReader.peek
  rw [ensure_fresh S 8 (by omega)]
  rw [if_pos (show (⟨S.drop 4096, S.take 4096⟩ : BufReader).buf.length < 8 from by
    show (S.take 4096).length < 8
    omega)]

theorem peek_buffered (D B : List Nat) (n : Nat) (h : n ≤ B.length) :
    BufReader.peek ⟨D, B⟩ n = Except.ok (B.take n, ⟨D, B⟩) := by
  unfold BufReader.peek
  rw [ensure_buffered D B n h]
  rw [if_neg (show ¬ (⟨D, B⟩ : BufReader).buf.length < n from by
    show ¬ B.length < n
    omega)]

theorem discard_buffered (D B : List Nat) (n : Nat) (h : n ≤ B.length) :
    BufReader.discard ⟨D, B⟩ n = Except.ok ⟨D, B.drop n⟩ := by
  unfold BufReader.discard
  rw [show 2 * n + 2 = (2 * n + 1) + 1 from rfl]
  unfold discardLoop
  rw [if_pos (show n ≤ (⟨D, B⟩ : BufReader).buf.length from h)]

theorem read_buffered (D B : List Nat) (n : Nat) (h : 0 < B.length) :
    BufReader.read ⟨D, B⟩ n = Except.ok (B.take n, ⟨D, B.drop n⟩) := by
  unfold BufReader.read
  by_cases hn : n = 0
  · subst hn
    simp
  · rw [if_neg hn, if_neg (show ¬ (⟨D, B⟩ : BufReader).buf.length = 0 from by
      show ¬ B.length = 0
      omega)]

/-! ## `readValue` on well-formed record frames -/

theorem readU32_u32le_nil (n : Nat) : readU32 (u32le n) = n % 4294967296 := by
  rw [← List.append_nil (u32le n), readU32_u32le]

theorem recFrame_drop8 (k v w : List Nat) :
    (recFrame k v w).drop (8 + k.length) = u32le v.length ++ (v ++ w) := by
  rw [show (8 + k.length) = 4 + (4 + k.length) from by omega, ← List.drop_drop,
    recFrame_drop4, recTail_drop_key]

theorem recFrame_drop12 (k v w : List Nat) :
    (recFrame k v w).drop (12 + k.length) = v ++ w := by
  rw [show (12 + k.length) = 4 + (8 + k.length) from by omega, ← List.drop_drop,
    recFrame_drop4, recTail_drop_keyval]

theorem recFrame_drop32 (k v w : List Nat) :
    (recFrame k v w).drop (12 + k.length + v.length) = w := by
  rw [show (12 + k.length + v.length) = 4 + (8 + k.length + v.length) from by omega,
    ← List.drop_drop, recFrame_drop4, recTail_drop_checksum]

theorem readValue_recFrame (k v w : List Nat) (hw : 20 ≤ w.length)
    (hbound : k.length + v.length + 32 ≤ 4096) :
    readValue (recFrame k v w) =
      if sha1 v = w.take 20 then Except.ok v else Except.error RVErr.checksumMismatch := by
  have hS : (recFrame k v w).length = k.length + v.length + 12 + w.length :=
    recFrame_length k v w
  have hmin : ((recFrame k v w).take 4096).length = min 4096 (recFrame k v w).length :=
    List.length_take ..
  have hks : readU32 (((recFrame k v w).take 8).drop 4) = k.length := by
    rw [List.drop_take, recFrame_drop4,
      show (8 : Nat) - 4 = 4 from rfl, take_len_append (u32le k.length) _ 4 rfl,
      readU32_u32le_nil, Nat.mod_eq_of_lt (by omega)]
  have h1 := peek8_fresh (recFrame k v w) (by omega)
  have h2 : BufReader.discard ⟨(recFrame k v w).drop 4096, (recFrame k v w).take 4096⟩
      (8 + k.length) = Except.ok ⟨(recFrame k v w).drop 4096,
        ((recFrame k v w).take 4096).drop (8 + k.length)⟩ :=
    discard_buffered _ _ _ (by omega)
  have hb2 : (((recFrame k v w).take 4096).drop (8 + k.length)).length =
      min 4096 (recFrame k v w).length - (8 + k.length) := by
    rw [List.length_drop, hmin]
  have h3 : BufReader.peek ⟨(recFrame k v w).drop 4096,
      ((recFrame k v w).take 4096).drop (8 + k.length)⟩ 4 =
      Except.ok ((((recFrame k v w).take 4096).drop (8 + k.length)).take 4,
        ⟨(recFrame k v w).drop 4096, ((recFrame k v w).take 4096).drop (8 + k.length)⟩) :=
    peek_buffered _ _ _ (by omega)
  have hvs : readU32 ((((recFrame k v w).take 4096).drop (8 + k.length)).take 4) =
      v.length := by
    rw [List.drop_take, List.take_take, Nat.min_eq_left (by omega), recFrame_drop8,
      take_len_append (u32le v.length) _ 4 rfl, readU32_u32le_nil,
      Nat.mod_eq_of_lt (by omega)]
  have h4 : BufReader.discard ⟨(recFrame k v w).drop 4096,
      ((recFrame k v w).take 4096).drop (8 + k.length)⟩ 4 =
      Except.ok ⟨(recFrame k v w).drop 4096,
        ((recFrame k v w).take 4096).drop (12 + k.length)⟩ := by
    rw [discard_buffered _ _ 4 (by omega), List.drop_drop,
      show (8 + k.length) + 4 = 12 + k.length from by omega]
  have hb3 : (((recFrame k v w).take 4096).drop (12 + k.length)).length =
      min 4096 (recFrame k v w).length - (12 + k.length) := by
    rw [List.length_drop, hmin]
  have hval : (((recFrame k v w).take 4096).drop (12 + k.length)).take v.length = v := by
    rw [List.drop_take, List.take_take, Nat.min_eq_left (by omega), recFrame_drop12,
      take_len_append v w v.length rfl]
  have h5 : BufReader.read ⟨(recFrame k v w).drop 4096,
      ((recFrame k v w).take 4096).drop (12 + k.length)⟩ v.length =
      Except.ok (v, ⟨(recFrame k v w).drop 4096,
        ((recFrame k v w).take 4096).drop (12 + k.length + v.length)⟩) := by
    rw [read_buffered _ _ _ (by omega), hval, List.drop_drop,
      show (12 + k.length) + v.length = 12 + k.length + v.length from by omega]
  have hb4 : (((recFrame k v w).take 4096).drop (12 + k.length + v.length)).length =
      min 4096 (recFrame k v w).length - (12 + k.length + v.length) := by
    rw [List.length_drop, hmin]
  have hstored : (((recFrame k v w).take 4096).drop (12 + k.length + v.length)).take 20 =
      w.take 20 := by
    rw [List.drop_take, List.take_take, Nat.min_eq_left (by omega), recFrame_drop32]
  have h6 : BufReader.read ⟨(recFrame k v w).drop 4096,
      ((recFrame k v w).take 4096).drop (12 + k.length + v.length)⟩ 20 =
      Except.ok (w.take 20, ⟨(recFrame k v w).drop 4096,
        (((recFrame k v w).take 4096).drop (12 + k.length + v.length)).drop 20⟩) := by
    rw [read_buffered _ _ _ (by omega), hstored]
  have hlw : (w.take 20).length = 20 := by
    rw [List.length_take]
    omega
  simp only [readValue, readValueR, h1, hks, h2, h3, hvs, h4, h5, h6,
    if_neg (show ¬ v.length ≠ v.length from fun hc => hc rfl),
    if_neg (show ¬ (w.take 20).length ≠ 20 from fun hc => hc hlw)]

theorem readValue_incompleteFrame (k v w : List Nat) (hk : k.length ≤ 4083)
    (hbig : 4084 - k.length < v.length) (hv : v.length < 4294967296) (hw : 20 ≤ w.length) :
    readValue (recFrame k v w) = Except.error RVErr.incompleteValue := by
  have hS : (recFrame k v w).length = k.length + v.length + 12 + w.length :=
    recFrame_length k v w
  have hmin : ((recFrame k v w).take 4096).length = min 4096 (recFrame k v w).length :=
    List.length_take ..
  have hks : readU32 (((recFrame k v w).take 8).drop 4) = k.length := by
    rw [List.drop_take, recFrame_drop4,
      show (8 : Nat) - 4 = 4 from rfl, take_len_append (u32le k.length) _ 4 rfl,
      readU32_u32le_nil, Nat.mod_eq_of_lt (by omega)]
  have h1 := peek8_fresh (recFrame k v w) (by omega)
  have h2 : BufReader.discard ⟨(recFrame k v w).drop 4096, (recFrame k v w).take 4096⟩
      (8 + k.length) = Except.ok ⟨(recFrame k v w).drop 4096,
        ((recFrame k v w).take 4096).drop (8 + k.length)⟩ :=
    discard_buffered _ _ _ (by omega)
  have hb2 : (((recFrame k v w).take 4096).drop (8 + k.length)).length =
      min 4096 (recFrame k v w).length - (8 + k.length) := by
    rw [List.length_drop, hmin]
  have h3 : BufReader.peek ⟨(recFrame k v w).drop 4096,
      ((recFrame k v w).take 4096).drop (8 + k.length)⟩ 4 =
      Except.ok ((((recFrame k v w).take 4096).drop (8 + k.length)).take 4,
        ⟨(recFrame k v w).drop 4096, ((recFrame k v w).take 4096).drop (8 + k.length)⟩) :=
    peek_buffered _ _ _ (by omega)
  have hvs : readU32 ((((recFrame k v w).take 4096).drop (8 + k.length)).take 4) =
      v.length := by
    rw [List.drop_take, List.take_take, Nat.min_eq_left (by omega), recFrame_drop8,
      take_len_append (u32le v.length) _ 4 rfl, readU32_u32le_nil,
      Nat.mod_eq_of_lt (by omega)]
  have h4 : BufReader.discard ⟨(recFrame k v w).drop 4096,
      ((recFrame k v w).take 4096).drop (8 + k.length)⟩ 4 =
      Except.ok ⟨(recFrame k v w).drop 4096,
        ((recFrame k v w).take 4096).drop (12 + k.length)⟩ := by
    rw [discard_buffered _ _ 4 (by omega), List.drop_drop,
      show (8 + k.length) + 4 = 12 + k.length from by omega]
  have hb3 : (((recFrame k v w).take 4096).drop (12 + k.length)).length =
      min 4096 (recFrame k v w).length - (12 + k.length) := by
    rw [List.length_drop, hmin]
  have h5 : BufReader.read ⟨(recFrame k v w).drop 4096,
      ((recFrame k v w).take 4096).drop (12 + k.length)⟩ v.length =
      Except.ok ((((recFrame k v w).take 4096).drop (12 + k.length)).take v.length,
        ⟨(recFrame k v w).drop 4096,
          (((recFrame k v w).take 4096).drop (12 + k.length)).drop v.length⟩) :=
    read_buffered _ _ _ (by omega)
  have hlv : ((((recFrame k v w).take 4096).drop (12 + k.length)).take v.length).length =
      4084 - k.length := by
    rw [List.length_take, hb3]
    omega
  simp only [readValue, readValueR, h1, hks, h2, h3, hvs, h4, h5,
    if_pos (show ((((recFrame k v w).take 4096).drop (12 + k.length)).take v.length).length
      ≠ v.length from by rw [hlv]; omega)]

/-- `readValue` succeeds on every encoded record that fits the 4096-byte
bufio buffer (with arbitrary following stream content), returning the
encoded value: the digest stored by `Encode` always verifies. -/
theorem readValue_encode (k v extra : List Nat)
    (hbound : calculateEntryLength k v ≤ 4096) :
    readValue (encode k v ++ extra) = Except.ok v := by
  rw [encode_append_eq_recFrame,
      readValue_recFrame k v _ (by rw [List.length_append, sha1_length]; omega)
        (by unfold calculateEntryLength at hbound; omega),
      if_pos (by rw [take_len_append (sha1 v) extra 20 (sha1_length v)])]

theorem readValue_digest_corrupted (k v d extra : List Nat)
    (hbound : calculateEntryLength k v ≤ 4096)
    (hd : d.length = 20) (hne : d ≠ sha1 v) :
    readValue (recFrame k v (d ++ extra)) = Except.error RVErr.checksumMismatch := by
  rw [readValue_recFrame k v _ (by rw [List.length_append]; omega)
        (by unfold calculateEntryLength at hbound; omega),
      if_neg (by rw [take_len_append d extra 20 hd]; exact fun h => hne h.symm)]

/-- An encoded record whose value overflows what the bufio buffer can serve
after the header and key are discarded is unreadable: the single
`reader.Read` call returns only the buffered bytes and `readValue` fails
with the incomplete-value-read error. -/
theorem readValue_incomplete (k v extra : List Nat) (hk : k.length ≤ 4083)
    (hbig : 4084 - k.length < v.length) (hv : v.length < 4294967296) :
    readValue (encode k v ++ extra) = Except.error RVErr.incompleteValue := by
  rw [encode_append_eq_recFrame,
      readValue_incompleteFrame k v _ hk hbig hv
        (by rw [List.length_append, sha1_length]; omega)]

/-- `bufio.Discard` treats two buffers that agree beyond their first four
bytes identically when at least four bytes are discarded. -/
theorem discardLoop_agnostic (fuel n : Nat) (D B1 B2 : List Nat) (hn : 4 ≤ n)
    (hlen : B1.length = B2.length) (hdrop : B1.drop 4 = B2.drop 4) :
    discardLoop fuel n ⟨D, B1⟩ = discardLoop fuel n ⟨D, B2⟩ := by
  cases fuel with
  | zero => rfl
  | succ fuel =>
    unfold discardLoop
    by_cases hle : n ≤ B1.length
    · rw [if_pos (show n ≤ (⟨D, B1⟩ : BufReader).buf.length from hle),
          if_pos (show n ≤ (⟨D, B2⟩ : BufReader).buf.length from hlen ▸ hle)]
      have hdn : B1.drop n = B2.drop n := by
        rw [show n = 4 + (n - 4) from by omega, ← List.drop_drop, ← List.drop_drop, hdrop]
      show Except.ok (⟨D, B1.drop n⟩ : BufReader) = Except.ok (⟨D, B2.drop n⟩ : BufReader)
      rw [hdn]
    · have hle2 : ¬ n ≤ B2.length := by omega
      rw [if_neg (show ¬ n ≤ (⟨D, B1⟩ : BufReader).buf.length from hle),
          if_neg (show ¬ n ≤ (⟨D, B2⟩ : BufReader).buf.length from hle2)]
      by_cases h0 : B1.length = 0
      · have e1 : B1 = [] := List.length_eq_zero.mp h0
        have e2 : B2 = [] := List.length_eq_zero.mp (by omega)
        rw [e1, e2]
      · rw [if_neg (show ¬ (⟨D, B1⟩ : BufReader).buf.length = 0 from h0),
            if_neg (show ¬ (⟨D, B2⟩ : BufReader).buf.length = 0 from by
              show ¬ B2.length = 0
              omega)]
        show discardLoop fuel (n - B1.length) ⟨D, []⟩ =
          discardLoop fuel (n - B2.length) ⟨D, []⟩
        rw [hlen]

/-- Claim C9: `GetLength` equals the length of the buffer produced by
`Encode`, namely `32 + len(key) + len(value)` bytes, so the rollover size
check in `Put` accounts for exactly the number of bytes the subsequent
append writes. -/
theorem C9_getlength_eq_encode_length (key value : List Nat) :
    calculateEntryLength key value = (encode key value).length ∧
    calculateEntryLength key value = key.length + value.length + 32 :=
  ⟨(encode_length key value).symm, rfl⟩

/-- Claim C3 (amended): for every `(key, value)` pair whose key and value
are each shorter than `2 ^ 32` bytes, decoding the encoded record yields
back exactly that key and value together with the stored digest
`sha1 value`, and digest verification succeeds on it. -/
theorem C3_decode_encode_roundtrip (key value : List Nat)
    (hk : key.length < 4294967296) (hv : value.length < 4294967296) :
    decode (encode key value) = some (key, value, sha1 value) ∧
    verifyChecksum key value (sha1 value) = Except.ok () := by
  constructor
  · rw [encode_eq_recFrame,
        decode_recFrame key value _ hk hv (by rw [sha1_length]),
        List.take_of_length_le (le_of_eq (sha1_length value))]
  · simp [verifyChecksum]

theorem C3_witness :
    ([1] : List Nat).length < 4294967296 ∧ ([2] : List Nat).length < 4294967296 ∧
    (decode (encode [1] [2]) = some ([1], [2], sha1 [2]) ∧
      verifyChecksum [1] [2] (sha1 [2]) = Except.ok ()) :=
  ⟨by decide, by decide, C3_decode_encode_roundtrip [1] [2] (by decide) (by decide)⟩

/-- Claim C3, counterexample: the length prefixes are written as `uint32`,
so for a value of exactly `2 ^ 32` bytes the stored `value_length` is
`2 ^ 32 % 2 ^ 32 = 0`, and `Decode` of the encoded record returns the empty
value instead of the original one: `Decode ∘ Encode` is not the identity on
all `(key, value)` pairs. -/
theorem recFrame_eq_of_lengths (k v w v2 w2 : List Nat)
    (h1 : u32le (k.length + v.length + 32) = u32le (k.length + v2.length + 32))
    (h2 : u32le v.length = u32le v2.length)
    (h3 : v ++ w = v2 ++ w2) :
    recFrame k v w = recFrame k v2 w2 := by
  unfold recFrame
  rw [h1, h2, h3]

theorem C3_counterexample :
    decode (encode [] (List.replicate 4294967296 0)) ≠
      some ([], List.replicate 4294967296 0, sha1 (List.replicate 4294967296 0)) := by
  have hv : (List.replicate 4294967296 (0:Nat)).length = 4294967296 :=
    List.length_replicate _ _
  -- Because the length prefixes are written modulo 2 ^ 32, the encoded
  -- buffer of (key = [], value of 2 ^ 32 zero bytes) is byte-for-byte the
  -- buffer of a record with empty key and empty value followed by
  -- 2 ^ 32 + 20 trailing bytes, so Decode returns the empty value.
  have hz : encode [] (List.replicate 4294967296 0) =
      recFrame [] [] (List.replicate 4294967296 0 ++ sha1 (List.replicate 4294967296 0)) := by
    rw [encode_eq_recFrame]
    exact recFrame_eq_of_lengths [] (List.replicate 4294967296 0)
      (sha1 (List.replicate 4294967296 0)) []
      (List.replicate 4294967296 0 ++ sha1 (List.replicate 4294967296 0))
      (by rw [hv]; decide) (by rw [hv]; decide) (List.nil_append _).symm
  have hdec : decode (encode [] (List.replicate 4294967296 0)) =
      some ([], [],
        (List.replicate 4294967296 0 ++ sha1 (List.replicate 4294967296 0)).take 20) := by
    rw [hz]
    exact decode_recFrame [] [] _ (by decide) (by decide)
      (by rw [List.length_append, hv, sha1_length]; omega)
  intro h
  rw [hdec] at h
  have h2 := Option.some.inj h
  have h4 : ([] : List Nat) = List.replicate 4294967296 (0 : Nat) :=
    congrArg (fun t => t.2.1) h2
  have h5 := congrArg List.length h4
  rw [List.length_nil, hv] at h5
  omega

/-- Claim C10: neither `Decode` nor `readValue` ever inspects the 4-byte
`total_size` prefix: two buffers that differ only in their first four bytes
decode identically and stream-read identically (the bufio runs buffer the
same byte counts and consume past byte 3 before extracting anything), so
corruption confined to the `total_size` field is invisible to the read
path. -/
theorem C10_total_size_ignored (p₁ p₂ rest : List Nat)
    (h₁ : p₁.length = 4) (h₂ : p₂.length = 4) :
    decode (p₁ ++ rest) = decode (p₂ ++ rest) ∧
      readValue (p₁ ++ rest) = readValue (p₂ ++ rest) := by
  have hlen12 : (p₁ ++ rest).length = (p₂ ++ rest).length := by
    simp [h₁, h₂]
  constructor
  · have e₁ : (p₁ ++ rest).drop 4 = rest := drop_len_append _ _ _ h₁
    have e₂ : (p₂ ++ rest).drop 4 = rest := drop_len_append _ _ _ h₂
    simp only [decode, e₁, e₂, hlen12]
  · by_cases h8 : (p₁ ++ rest).length < 8
    · simp only [readValue, readValueR, peek8_fresh_short (p₁ ++ rest) h8,
        peek8_fresh_short (p₂ ++ rest) (by omega)]
    · have hksEq : ((p₁ ++ rest).take 8).drop 4 = ((p₂ ++ rest).take 8).drop 4 := by
        rw [List.drop_take, List.drop_take, drop_len_append p₁ rest 4 h₁,
          drop_len_append p₂ rest 4 h₂]
      have hD : (p₁ ++ rest).drop 4096 = (p₂ ++ rest).drop 4096 := by
        rw [show (4096 : Nat) = 4 + 4092 from rfl, drop_len_append_add p₁ rest 4 4092 h₁,
          drop_len_append_add p₂ rest 4 4092 h₂]
      have hB : ((p₁ ++ rest).take 4096).length = ((p₂ ++ rest).take 4096).length := by
        rw [List.length_take, List.length_take, hlen12]
      have hBdrop : ((p₁ ++ rest).take 4096).drop 4 = ((p₂ ++ rest).take 4096).drop 4 := by
        rw [List.drop_take, List.drop_take, drop_len_append p₁ rest 4 h₁,
          drop_len_append p₂ rest 4 h₂]
      have hdisc : BufReader.discard ⟨(p₂ ++ rest).drop 4096, (p₁ ++ rest).take 4096⟩
          (8 + readU32 (((p₂ ++ rest).take 8).drop 4)) =
          BufReader.discard ⟨(p₂ ++ rest).drop 4096, (p₂ ++ rest).take 4096⟩
          (8 + readU32 (((p₂ ++ rest).take 8).drop 4)) := by
        unfold BufReader.discard
        exact discardLoop_agnostic _ _ _ _ _ (by omega) hB hBdrop
      simp only [readValue, readValueR, peek8_fresh (p₁ ++ rest) (by omega),
        peek8_fresh (p₂ ++ rest) (by omega), hksEq, hD, hdisc]

theorem C10_witness :
    ([9, 9, 9, 9] : List Nat).length = 4 ∧ ([0, 0, 0, 0] : List Nat).length = 4 ∧
    (decode ([9, 9, 9, 9] ++ [7]) = decode ([0, 0, 0, 0] ++ [7]) ∧
      readValue ([9, 9, 9, 9] ++ [7]) = readValue ([0, 0, 0, 0] ++ [7])) :=
  ⟨rfl, rfl, C10_total_size_ignored [9, 9, 9, 9] [0, 0, 0, 0] [7] rfl rfl⟩

/-! ## The store model (`db.go`)

The store is embedded at the record level: a segment file is the sequence
of `(key, value)` records appended to it, and its on-disk byte image
(`segBytes`) is the concatenation of their encodings, so the index holds
byte offsets into that image.  A positioned read (`readFromSegment`)
drops to the offset and streams one record through a fresh
`bufio.Reader`, inheriting the buffer-size failure modes of `readValue`:
a record whose encoding fits the 4096-byte buffer reads back exactly,
a larger one fails (theorems `readFromSegment_offsetOfLast` and
`readValue_incomplete`).  Go's `map[string]int64` index is an
association list updated by replacement; its iteration order (used only
by the compactor) is the deterministic list order, standing in for Go's
unspecified map range order.  The background compaction goroutine
spawned by `initializeNewSegment` is run synchronously at its spawn
point, which is one of its admissible schedules. -/

abbrev GoStr := List Nat

abbrev Rec := GoStr × GoStr

/-- Byte length of a record sequence as laid out on disk
(`fileInfo.Size()` of a file holding exactly these records);
equals `(segBytes file).length` by `encode_length`. -/
def byteLen : List Rec → Nat
  | [] => 0
  | r :: rest => calculateEntryLength r.1 r.2 + byteLen rest

/-- The on-disk byte image of a segment file: the concatenation of the
encodings of its records. -/
def segBytes : List Rec → List Nat
  | [] => []
  | r :: rest => encode r.1 r.2 ++ segBytes rest

/-- `(*Segment).readFromSegment`: open the segment's file, `Seek` to
`pos`, and stream one record with `readValue` through a fresh
`bufio.NewReader` over the remainder of the file. -/
def readFromSegment (file : List Rec) (pos : Nat) : Except RVErr GoStr :=
  readValue ((segBytes file).drop pos)

/-- How `Get` surfaces a failure of the streaming read.  The Go code
returns the `error` value itself; we classify it by the line producing
it: the checksum comparison, the two short-read errors (record data the
reader could not deliver), and end-of-stream reads. -/
def dbErrOfRV : RVErr → DbError
  | RVErr.checksumMismatch => DbError.checksumMismatch
  | RVErr.incompleteValue => DbError.corruptRecord
  | RVErr.incompleteChecksum => DbError.corruptRecord
  | RVErr.eof => DbError.ioError

/-- A record small enough that its entire encoding fits the 4096-byte
bufio buffer.  Such a record is always readable back
(`readFromSegment_offsetOfLast`); a record whose value runs past what
the buffer can serve is not (`readValue_incomplete`). -/
def goodRec (r : Rec) : Prop := calculateEntryLength r.1 r.2 ≤ 4096

/-- Every record of a file fits the bufio buffer. -/
def goodFile (file : List Rec) : Prop := ∀ r ∈ file, goodRec r

/-- Byte offset of the most recent (last) record with key `k`, if any. -/
def offsetOfLast : List Rec → GoStr → Option Nat
  | [], _ => none
  | r :: rest, k =>
    match offsetOfLast rest k with
    | some off => some (calculateEntryLength r.1 r.2 + off)
    | none => if r.1 = k then some 0 else none

/-- Right-biased choice: `ovr a b` is `a` when `a` is `some`, else `b`. -/
def ovr (a b : Option GoStr) : Option GoStr :=
  match a with
  | some x => some x
  | none => b

/-- Value of the most recent (last) record with key `k`, if any. -/
def lastValue : List Rec → GoStr → Option GoStr
  | [], _ => none
  | r :: rest, k => ovr (lastValue rest k) (if r.1 = k then some r.2 else none)

/-- Go map assignment `m[k] = off`: replace any existing binding of `k`. -/
def aset (m : List (GoStr × Nat)) (k : GoStr) (off : Nat) : List (GoStr × Nat) :=
  (k, off) :: m.filter (fun p => decide (p.1 ≠ k))

/-- Go map lookup `off, found := m[k]`. -/
def alookup (m : List (GoStr × Nat)) (k : GoStr) : Option Nat :=
  match m.find? (fun p => decide (p.1 = k)) with
  | some p => some p.2
  | none => none

/-- A `Segment`: the numeric suffix of its file name
(`current-data<suffix>`), its in-memory key index, and the contents of its
file.  (The Go struct stores the path string; paths within one directory
differ exactly in the suffix.) -/
structure Segment where
  suffix : Nat
  keyIndex : List (GoStr × Nat)
  file : List Rec
  deriving DecidableEq

/-- The `Db` struct: ordered segment set (active last), current offset in
the active file, configured maximum segment size (`int64`), monotonic
filename counter, and whether the active file handle has been closed. -/
structure Db where
  segments : List Segment
  currentOffset : Nat
  maxSegmentSize : Int
  segmentCounter : Nat
  closed : Bool

/-- State of a compaction pass: consolidated file contents, its index, the
running write offset, and the `keysWritten` set. -/
structure CState where
  file : List Rec
  idx : List (GoStr × Nat)
  off : Nat
  written : List GoStr
  deriving DecidableEq

/-- One iteration of the inner loop of `compactOldSegments`: skip keys
already written; read the key's value at its indexed position — `continue`
(skipping the key) when `readFromSegment` returns an error; append a fresh
record to the consolidation target and index it at the current write
offset, advancing by `bytesWritten`, the encoded length. -/
def compactEntryStep (sfile : List Rec) (st : CState) (p : GoStr × Nat) : CState :=
  if p.1 ∈ st.written then st
  else
    match readFromSegment sfile p.2 with
    | Except.error _ => st
    | Except.ok v =>
      ⟨st.file ++ [(p.1, v)], aset st.idx p.1 st.off,
        st.off + calculateEntryLength p.1 v, p.1 :: st.written⟩

/-- Process one scanned segment: walk its key index in order. -/
def compactSegStep (st : CState) (s : Segment) : CState :=
  s.keyIndex.foldl (compactEntryStep s.file) st

/-- `(*Db).compactOldSegments`: re-check the segment count, allocate the
next counter value for the consolidation target, scan segments
`len-2 .. 0` (newest first), and replace the segment set with
`[target, segments[len-1]]`; the removed segments' files are deleted. -/
def Db.compactOldSegments (db : Db) : Db :=
  if db.segments.length < 3 then db
  else
    let db2 : Db := { db with segmentCounter := db.segmentCounter + 1 }
    match db2.segments.getLast? with
    | none => db2
    | some lastSeg =>
      let scanned := (db2.segments.take (db2.segments.length - 1)).reverse
      let st := scanned.foldl compactSegStep ⟨[], [], 0, []⟩
      let target : Segment := ⟨db.segmentCounter, st.idx, st.file⟩
      { db2 with segments := [target, lastSeg] }

/-- `(*Db).initializeNewSegment` (named `initNewSegment` here): open a file
named with the current counter value, make it the active segment with a
fresh empty index, reset the current offset, append it to the set, and
trigger compaction when the set now holds at least `minSegments = 3`
segments (the spawned goroutine is run synchronously here). -/
def Db.initNewSegment (db : Db) : Db :=
  let fresh : Segment := ⟨db.segmentCounter, [], []⟩
  let db2 : Db := { db with
    segmentCounter := db.segmentCounter + 1
    closed := false
    currentOffset := 0
    segments := db.segments ++ [fresh] }
  if 3 ≤ db2.segments.length then db2.compactOldSegments else db2

/-- The contents of the active file (`db.activeFile`), which is the file of
the last segment of the set for every store produced by `Db.create`. -/
def Db.activeFileRecs (db : Db) : List Rec :=
  match db.segments.getLast? with
  | some s => s.file
  | none => []

/-- `(*Db).Put`: fail if the active file handle is closed (`Stat` returns
an I/O error — there is no dedicated closed-store error in the code);
roll to a new segment when the active file size plus the encoded entry
size would exceed `maxSegmentSize`; append the encoded record at the
current offset and index the key at the offset held before the write. -/
def Db.put (db : Db) (key value : GoStr) : Except DbError Db :=
  if db.closed then Except.error DbError.ioError
  else
    let db1 :=
      if (byteLen db.activeFileRecs : Int) + (calculateEntryLength key value : Int) >
          db.maxSegmentSize
      then db.initNewSegment else db
    match db1.segments.getLast? with
    | none => Except.error DbError.ioError
    | some seg =>
      let pos := db1.currentOffset
      let seg2 : Segment := ⟨seg.suffix, aset seg.keyIndex key pos, seg.file ++ [(key, value)]⟩
      Except.ok { db1 with
        segments := db1.segments.dropLast ++ [seg2]
        currentOffset := pos + calculateEntryLength key value }

/-- The segment scan of `(*Db).findKeyLocation`, given the segment list
already reversed (newest first). -/
def findInSegs : List Segment → GoStr → Option (Segment × Nat)
  | [], _ => none
  | s :: rest, k =>
    match alookup s.keyIndex k with
    | some off => some (s, off)
    | none => findInSegs rest k

/-- `(*Db).findKeyLocation`: scan segments newest-first for the key. -/
def Db.findKeyLocation (db : Db) (k : GoStr) : Option (Segment × Nat) :=
  findInSegs db.segments.reverse k

/-- `(*Db).Get`: locate the key (missing key is the key-not-found error),
then perform a positioned streaming read from the segment found,
propagating its error. -/
def Db.get (db : Db) (k : GoStr) : Except DbError GoStr :=
  match db.findKeyLocation k with
  | none => Except.error DbError.keyNotFound
  | some (s, off) =>
    match readFromSegment s.file off with
    | Except.ok v => Except.ok v
    | Except.error e => Except.error (dbErrOfRV e)

/-- `(*Db).Close`: closes the active file handle and nothing else — no
closed flag is consulted elsewhere, no queue is drained. -/
def Db.close (db : Db) : Db := { db with closed := true }

/-- `CreateDb`: start from the recovered segments (as discovered and
re-indexed from the directory, in directory order) with the counter at
zero, then create a fresh active segment.  A store opened on an empty
directory is `Db.create [] maxSegmentSize`. -/
def Db.create (recovered : List Segment) (maxSegmentSize : Int) : Db :=
  Db.initNewSegment
    { segments := recovered, currentOffset := 0, maxSegmentSize := maxSegmentSize,
      segmentCounter := 0, closed := false }

/-- `Put` as a state transformer (the state is unchanged on error). -/
def Db.putD (db : Db) (key value : GoStr) : Db :=
  match db.put key value with
  | Except.ok db2 => db2
  | Except.error _ => db

/-- Run a sequence of puts. -/
def applyPuts (db : Db) (ps : List Rec) : Db :=
  ps.foldl (fun d p => d.putD p.1 p.2) db

/-- Index correctness for one segment: every index entry points at the
offset of the most recent record with its key, and every key in the file
is indexed. -/
def OkIdx (idx : List (GoStr × Nat)) (file : List Rec) : Prop :=
  (∀ p ∈ idx, offsetOfLast file p.1 = some p.2) ∧
  (∀ r ∈ file, ∃ p ∈ idx, p.1 = r.1)

/-- A structurally sound segment. -/
def Segment.Ok (s : Segment) : Prop := OkIdx s.keyIndex s.file

/-- The reachable-state invariant of a store: the segment set is nonempty,
every segment's index is correct, and the tracked current offset equals
the byte size of the active file. -/
def Db.Inv (db : Db) : Prop :=
  db.segments ≠ [] ∧ (∀ s ∈ db.segments, s.Ok) ∧
  db.currentOffset = byteLen db.activeFileRecs

/-- Every record in every segment of the store fits the bufio buffer. -/
def Db.Good (db : Db) : Prop := ∀ s ∈ db.segments, goodFile s.file

instance (r : Rec) : Decidable (goodRec r) := by
  unfold goodRec
  exact inferInstance

instance (file : List Rec) : Decidable (goodFile file) := by
  unfold goodFile
  exact inferInstance

instance (idx : List (GoStr × Nat)) (file : List Rec) : Decidable (OkIdx idx file) := by
  unfold OkIdx
  exact inferInstance

instance (s : Segment) : Decidable s.Ok := by
  unfold Segment.Ok
  exact inferInstance

instance (db : Db) : Decidable db.Inv := by
  unfold Db.Inv
  exact inferInstance

instance (db : Db) : Decidable db.Good := by
  unfold Db.Good
  exact inferInstance

/-- The chronological record stream of a segment list (oldest first). -/
def segsRecs : List Segment → List Rec
  | [] => []
  | s :: rest => s.file ++ segsRecs rest

/-- All records of the store, oldest segment first. -/
def Db.recs (db : Db) : List Rec := segsRecs db.segments

/-- First hit scanning a list of segments newest-first. -/
def newestView : List Segment → GoStr → Option GoStr
  | [], _ => none
  | s :: rest, k => ovr (lastValue s.file k) (newestView rest k)

/-! ## Record-list lemmas -/

theorem ovr_none_right (a : Option GoStr) : ovr a none = a := by
  cases a <;> rfl

theorem ovr_assoc (a b c : Option GoStr) : ovr (ovr a b) c = ovr a (ovr b c) := by
  cases a <;> rfl

theorem byteLen_append (A B : List Rec) : byteLen (A ++ B) = byteLen A + byteLen B := by
  induction A with
  | nil => simp [byteLen]
  | cons r A ih => simp [byteLen, ih]; omega

theorem lastValue_append (A B : List Rec) (k : GoStr) :
    lastValue (A ++ B) k = ovr (lastValue B k) (lastValue A k) := by
  induction A with
  | nil => simp [lastValue, ovr_none_right]
  | cons r A ih => simp [lastValue, ih, ovr_assoc]

theorem lastValue_concat (A : List Rec) (k k' v : GoStr) :
    lastValue (A ++ [(k, v)]) k' = if k' = k then some v else lastValue A k' := by
  rw [lastValue_append]
  by_cases h : k' = k
  · subst h
    simp [lastValue, ovr]
  · simp [lastValue, ovr, Ne.symm h, h]

theorem offsetOfLast_concat_self (A : List Rec) (k v : GoStr) :
    offsetOfLast (A ++ [(k, v)]) k = some (byteLen A) := by
  induction A with
  | nil => simp [offsetOfLast, byteLen]
  | cons r A ih => simp [offsetOfLast, ih, byteLen]

theorem offsetOfLast_concat_ne (A : List Rec) (k k' v : GoStr) (h : k' ≠ k) :
    offsetOfLast (A ++ [(k, v)]) k' = offsetOfLast A k' := by
  induction A with
  | nil => simp [offsetOfLast, Ne.symm h]
  | cons r A ih => simp [offsetOfLast, ih]

theorem offsetOfLast_none_iff (recs : List Rec) (k : GoStr) :
    offsetOfLast recs k = none ↔ lastValue recs k = none := by
  induction recs with
  | nil => simp [offsetOfLast, lastValue]
  | cons r rest ih =>
    rw [offsetOfLast, lastValue]
    cases hr : offsetOfLast rest k with
    | some off =>
      have hl : lastValue rest k ≠ none := fun hl => by
        rw [ih.mpr hl] at hr
        cases hr
      cases hl2 : lastValue rest k with
      | none => exact absurd hl2 hl
      | some w => simp [ovr]
    | none =>
      rw [ih.mp hr]
      by_cases hk : r.1 = k <;> simp [ovr, hk]

theorem lastValue_some_iff (recs : List Rec) (k : GoStr) :
    (∃ v, lastValue recs k = some v) ↔ ∃ r ∈ recs, r.1 = k := by
  induction recs with
  | nil => simp [lastValue]
  | cons r rest ih =>
    rw [lastValue]
    cases hl : lastValue rest k with
    | some v =>
      simp only [ovr]
      obtain ⟨x, hx, hxk⟩ := ih.mp ⟨v, hl⟩
      exact ⟨fun _ => ⟨x, List.mem_cons_of_mem _ hx, hxk⟩, fun _ => ⟨v, rfl⟩⟩
    | none =>
      simp only [ovr]
      constructor
      · intro ⟨v, hv⟩
        by_cases hk : r.1 = k
        · exact ⟨r, List.mem_cons_self _ _, hk⟩
        · rw [if_neg hk] at hv
          cases hv
      · intro ⟨x, hx, hxk⟩
        rcases List.mem_cons.mp hx with rfl | hx2
        · exact ⟨x.2, by rw [if_pos hxk]⟩
        · obtain ⟨v, hv⟩ := ih.mpr ⟨x, hx2, hxk⟩
          rw [hv] at hl
          cases hl


/-! ## Index (Go map) lemmas -/

theorem alookup_some (m : List (GoStr × Nat)) (k : GoStr) (off : Nat)
    (h : alookup m k = some off) : ∃ p ∈ m, p.1 = k ∧ p.2 = off := by
  unfold alookup at h
  cases hf : m.find? (fun p => decide (p.1 = k)) with
  | none =>
    rw [hf] at h
    cases h
  | some p =>
    rw [hf] at h
    refine ⟨p, List.mem_of_find?_eq_some hf, ?_, Option.some.inj h⟩
    have h1 := List.find?_some hf
    exact of_decide_eq_true (by simpa using h1)

theorem alookup_none (m : List (GoStr × Nat)) (k : GoStr)
    (h : alookup m k = none) : ∀ p ∈ m, p.1 ≠ k := by
  unfold alookup at h
  cases hf : m.find? (fun p => decide (p.1 = k)) with
  | none =>
    intro p hp hk
    exact List.find?_eq_none.mp hf p hp (decide_eq_true hk)
  | some p =>
    rw [hf] at h
    cases h

theorem OkIdx.alookup_eq {idx : List (GoStr × Nat)} {file : List Rec}
    (h : OkIdx idx file) (k : GoStr) :
    alookup idx k = offsetOfLast file k := by
  cases ha : alookup idx k with
  | some off =>
    obtain ⟨p, hp, hk, hoff⟩ := alookup_some _ _ _ ha
    rw [← hk, h.1 p hp, hoff]
  | none =>
    have hnone := alookup_none _ _ ha
    have hlv : lastValue file k = none := by
      cases hl : lastValue file k with
      | none => rfl
      | some v =>
        obtain ⟨r, hr, hrk⟩ := (lastValue_some_iff _ _).mp ⟨v, hl⟩
        obtain ⟨p, hp, hpk⟩ := h.2 r hr
        exact absurd (hpk.trans hrk) (hnone p hp)
    exact ((offsetOfLast_none_iff _ _).mpr hlv).symm

theorem OkIdx_concat {idx : List (GoStr × Nat)} {file : List Rec}
    (h : OkIdx idx file) (k v : GoStr) :
    OkIdx (aset idx k (byteLen file)) (file ++ [(k, v)]) := by
  constructor
  · intro p hp
    unfold aset at hp
    rcases List.mem_cons.mp hp with rfl | hp2
    · exact offsetOfLast_concat_self _ _ _
    · have hmem := List.mem_of_mem_filter hp2
      have h1 := List.of_mem_filter hp2
      have hne : p.1 ≠ k := of_decide_eq_true (by simpa using h1)
      rw [offsetOfLast_concat_ne _ _ _ _ hne]
      exact h.1 p hmem
  · intro r hr
    rcases List.mem_append.mp hr with hr1 | hr2
    · obtain ⟨p, hp, hpk⟩ := h.2 r hr1
      by_cases hk : p.1 = k
      · exact ⟨(k, byteLen file), List.mem_cons_self _ _, by rw [← hk, hpk]⟩
      · refine ⟨p, ?_, hpk⟩
        unfold aset
        exact List.mem_cons_of_mem _ (List.mem_filter.mpr ⟨hp, decide_eq_true hk⟩)
    · have hr3 : r = (k, v) := by simpa using hr2
      exact ⟨(k, byteLen file), List.mem_cons_self _ _, by rw [hr3]⟩


/-! ## Segment-list lemmas -/

theorem getLast?_decomp {α : Type} (l : List α) (a : α) (h : l.getLast? = some a) :
    l = l.dropLast ++ [a] := by
  have hne : l ≠ [] := by
    intro h0
    subst h0
    cases h
  have h2 := List.dropLast_append_getLast hne
  have h3 : l.getLast hne = a := by
    rw [List.getLast?_eq_getLast l hne] at h
    exact Option.some.inj h
  rw [← h3]
  exact h2.symm

theorem mem_of_getLast? {α : Type} {l : List α} {a : α} (h : l.getLast? = some a) :
    a ∈ l := by
  have h2 := getLast?_decomp l a h
  rw [h2]
  simp

theorem getLast?_exists_of_ne_nil {α : Type} {l : List α} (h : l ≠ []) :
    ∃ a, l.getLast? = some a := by
  refine ⟨l.getLast h, ?_⟩
  exact List.getLast?_eq_getLast l h

theorem segsRecs_append (A B : List Segment) :
    segsRecs (A ++ B) = segsRecs A ++ segsRecs B := by
  induction A with
  | nil => rfl
  | cons s A ih => simp [segsRecs, ih]

theorem newestView_append (A B : List Segment) (k : GoStr) :
    newestView (A ++ B) k = ovr (newestView A k) (newestView B k) := by
  induction A with
  | nil => rfl
  | cons s A ih => simp [newestView, ih, ovr_assoc]

theorem newestView_reverse (l : List Segment) (k : GoStr) :
    newestView l.reverse k = lastValue (segsRecs l) k := by
  induction l with
  | nil => rfl
  | cons s rest ih =>
    rw [List.reverse_cons, newestView_append, ih]
    show ovr (lastValue (segsRecs rest) k) (ovr (lastValue s.file k) none) =
      lastValue (s.file ++ segsRecs rest) k
    rw [ovr_none_right, lastValue_append]

/-! ## The positioned read path -/

/-- The value delivered by `lastValue` is a record of the list. -/
theorem lastValue_mem (recs : List Rec) (k v : GoStr) (h : lastValue recs k = some v) :
    (k, v) ∈ recs := by
  induction recs with
  | nil => cases h
  | cons r rest ih =>
    rw [lastValue] at h
    cases hl : lastValue rest k with
    | some w =>
      rw [hl] at h
      obtain rfl : w = v := Option.some.inj h
      exact List.mem_cons_of_mem _ (ih hl)
    | none =>
      rw [hl] at h
      by_cases hk : r.1 = k
      · rw [if_pos hk] at h
        obtain rfl : r.2 = v := Option.some.inj h
        subst hk
        rw [Prod.mk.eta]
        exact List.mem_cons_self _ _
      · rw [if_neg hk] at h
        cases h

/-- An indexed key has a most recent value (no file read involved). -/
theorem lastValue_of_offsetOfLast (recs : List Rec) (k : GoStr) (off : Nat)
    (h : offsetOfLast recs k = some off) : ∃ v, lastValue recs k = some v := by
  cases hl : lastValue recs k with
  | some v => exact ⟨v, rfl⟩
  | none =>
    rw [(offsetOfLast_none_iff recs k).mpr hl] at h
    cases h

/-- Skipping one full record in the byte image. -/
theorem segBytes_cons_drop (r : Rec) (rest : List Rec) (off : Nat) :
    (segBytes (r :: rest)).drop (calculateEntryLength r.1 r.2 + off) =
      (segBytes rest).drop off := by
  show (encode r.1 r.2 ++ segBytes rest).drop (calculateEntryLength r.1 r.2 + off) = _
  exact drop_len_append_add _ _ _ _ (encode_length r.1 r.2)

/-- A positioned read at the indexed offset of a key streams back the most
recent value of that key, provided every record of the file fits the
bufio buffer. -/
theorem readFromSegment_offsetOfLast (recs : List Rec) (k : GoStr) (off : Nat)
    (hg : goodFile recs) (h : offsetOfLast recs k = some off) :
    ∃ v, lastValue recs k = some v ∧ readFromSegment recs off = Except.ok v := by
  induction recs generalizing off with
  | nil => cases h
  | cons r rest ih =>
    rw [offsetOfLast] at h
    cases hr : offsetOfLast rest k with
    | some off2 =>
      rw [hr] at h
      obtain rfl : calculateEntryLength r.1 r.2 + off2 = off := Option.some.inj h
      obtain ⟨v, hv1, hv2⟩ := ih off2 (fun q hq => hg q (List.mem_cons_of_mem _ hq)) hr
      refine ⟨v, ?_, ?_⟩
      · rw [lastValue, hv1]
        rfl
      · show readValue ((segBytes (r :: rest)).drop (calculateEntryLength r.1 r.2 + off2)) =
          Except.ok v
        rw [segBytes_cons_drop]
        exact hv2
    | none =>
      rw [hr] at h
      by_cases hk : r.1 = k
      · rw [if_pos hk] at h
        obtain rfl : (0 : Nat) = off := Option.some.inj h
        refine ⟨r.2, ?_, ?_⟩
        · rw [lastValue, (offsetOfLast_none_iff _ _).mp hr]
          simp [ovr, hk]
        · show readValue ((segBytes (r :: rest)).drop 0) = Except.ok r.2
          rw [List.drop_zero]
          show readValue (encode r.1 r.2 ++ segBytes rest) = Except.ok r.2
          exact readValue_encode r.1 r.2 _ (hg r (List.mem_cons_self _ _))
      · rw [if_neg hk] at h
        cases h

/-- The newest-first scan of `findKeyLocation` either misses everywhere
(and then the whole store has no record of the key) or finds the newest
segment indexing the key, at the offset of that segment's most recent
record of the key, whose value is the most recent one globally.  This
characterizes the index scan only — no file read is involved. -/
theorem findInSegs_spec (segs : List Segment) (hOk : ∀ s ∈ segs, s.Ok) (k : GoStr) :
    (findInSegs segs.reverse k = none ∧ lastValue (segsRecs segs) k = none) ∨
    (∃ s off v, s ∈ segs ∧ findInSegs segs.reverse k = some (s, off) ∧
      offsetOfLast s.file k = some off ∧ lastValue s.file k = some v ∧
      lastValue (segsRecs segs) k = some v) := by
  induction segs using List.reverseRecOn with
  | nil => exact Or.inl ⟨rfl, rfl⟩
  | append_singleton segs s ih =>
    have hOkS : s.Ok := hOk s (by simp)
    have hrev : (segs ++ [s]).reverse = s :: segs.reverse := by simp
    have hrecs : segsRecs (segs ++ [s]) = segsRecs segs ++ s.file := by
      rw [segsRecs_append]
      show segsRecs segs ++ (s.file ++ segsRecs []) = segsRecs segs ++ s.file
      simp [segsRecs]
    rw [hrev, hrecs]
    have halo := hOkS.alookup_eq k
    cases hoff : offsetOfLast s.file k with
    | some off =>
      obtain ⟨v, hv⟩ := lastValue_of_offsetOfLast s.file k off hoff
      refine Or.inr ⟨s, off, v, by simp, ?_, hoff, hv, ?_⟩
      · rw [findInSegs, halo, hoff]
      · rw [lastValue_append, hv]
        rfl
    | none =>
      have hlv : lastValue s.file k = none := (offsetOfLast_none_iff _ _).mp hoff
      have hstep : findInSegs (s :: segs.reverse) k = findInSegs segs.reverse k := by
        rw [findInSegs, halo, hoff]
      rw [hstep, lastValue_append, hlv]
      have hOk2 : ∀ t ∈ segs, t.Ok := fun t ht => hOk t (by simp [ht])
      rcases ih hOk2 with ⟨h1, h2⟩ | ⟨t, off, v, ht, h1, h2, h3, h4⟩
      · exact Or.inl ⟨h1, by rw [h2]; rfl⟩
      · exact Or.inr ⟨t, off, v, by simp [ht], h1, h2, h3, by rw [h4]; rfl⟩

/-- On a structurally sound store all of whose records fit the bufio
buffer, `Get` returns exactly the most recent value for the key across
the whole store, and the key-not-found error when no record of the key
exists. -/
theorem Db.get_eq_view (db : Db) (h : db.Inv) (hg : db.Good) (k : GoStr) :
    db.get k = match lastValue db.recs k with
      | some v => Except.ok v
      | none => Except.error DbError.keyNotFound := by
  rcases findInSegs_spec db.segments h.2.1 k with ⟨h1, h2⟩ | ⟨s, off, v, hs, h1, h2, h3, h4⟩
  · show (match db.findKeyLocation k with
      | none => Except.error DbError.keyNotFound
      | some (s, off) => match readFromSegment s.file off with
        | Except.ok v => Except.ok v
        | Except.error e => Except.error (dbErrOfRV e)) = _
    rw [Db.findKeyLocation, h1]
    show Except.error DbError.keyNotFound = _
    rw [Db.recs, h2]
  · obtain ⟨v2, hv2a, hv2b⟩ := readFromSegment_offsetOfLast s.file k off (hg s hs) h2
    have hveq : v2 = v := by
      rw [hv2a] at h3
      exact Option.some.inj h3
    show (match db.findKeyLocation k with
      | none => Except.error DbError.keyNotFound
      | some (s, off) => match readFromSegment s.file off with
        | Except.ok v => Except.ok v
        | Except.error e => Except.error (dbErrOfRV e)) = _
    rw [Db.findKeyLocation, h1]
    show (match readFromSegment s.file off with
      | Except.ok v => Except.ok v
      | Except.error e => Except.error (dbErrOfRV e)) = _
    rw [hv2b]
    show Except.ok v2 = _
    rw [hveq, Db.recs, h4]

/-- A key with no record anywhere misses every index, so `Get` returns the
key-not-found error without touching any file — this needs no bound on
record sizes. -/
theorem Db.get_none (db : Db) (h : db.Inv) (k : GoStr)
    (hlv : lastValue db.recs k = none) :
    db.get k = Except.error DbError.keyNotFound := by
  rcases findInSegs_spec db.segments h.2.1 k with ⟨h1, _⟩ | ⟨s, off, v, _, _, _, _, h4⟩
  · show (match db.findKeyLocation k with
      | none => Except.error DbError.keyNotFound
      | some (s, off) => match readFromSegment s.file off with
        | Except.ok v => Except.ok v
        | Except.error e => Except.error (dbErrOfRV e)) = _
    rw [Db.findKeyLocation, h1]
  · rw [Db.recs] at hlv
    rw [hlv] at h4
    cases h4

/-! ## Compaction -/

/-- Invariant of the compaction fold state: the target's index is correct
for its file, the write offset equals the file size, and `keysWritten` is
exactly the key set of the file. -/
def CInv (st : CState) : Prop :=
  OkIdx st.idx st.file ∧ st.off = byteLen st.file ∧
  (∀ k, k ∈ st.written ↔ ∃ v, lastValue st.file k = some v)

theorem ovr_none_iff (a b : Option GoStr) : ovr a b = none ↔ a = none ∧ b = none := by
  cases a with
  | none => simp [ovr]
  | some x => simp [ovr]

theorem lastValue_segsRecs_none (segs : List Segment) (k : GoStr)
    (h : lastValue (segsRecs segs) k = none) :
    ∀ s ∈ segs, lastValue s.file k = none := by
  induction segs with
  | nil => intro s hs; cases hs
  | cons t rest ih =>
    rw [show segsRecs (t :: rest) = t.file ++ segsRecs rest from rfl,
      lastValue_append, ovr_none_iff] at h
    intro s hs
    rcases List.mem_cons.mp hs with rfl | hs2
    · exact h.2
    · exact ih h.1 s hs2

theorem exists_key_cons_iff (p : GoStr × Nat) (es : List (GoStr × Nat)) (k : GoStr)
    (hk : p.1 ≠ k) : (∃ q ∈ p :: es, q.1 = k) ↔ ∃ q ∈ es, q.1 = k := by
  constructor
  · rintro ⟨q, hq, hqk⟩
    rcases List.mem_cons.mp hq with rfl | hq2
    · exact absurd hqk hk
    · exact ⟨q, hq2, hqk⟩
  · rintro ⟨q, hq, hqk⟩
    exact ⟨q, List.mem_cons_of_mem _ hq, hqk⟩

/-- The compaction-state invariant survives walking one segment's index
entries whether or not the positioned reads succeed, and no record of a
key absent from the scanned segment is ever written. -/
theorem compactEntryFold_weak (s : Segment) (hs : s.Ok) :
    ∀ (es : List (GoStr × Nat)) (st : CState),
      (∀ p ∈ es, p ∈ s.keyIndex) → CInv st →
      CInv (es.foldl (compactEntryStep s.file) st) ∧
      ∀ k, lastValue s.file k = none → lastValue st.file k = none →
        lastValue (es.foldl (compactEntryStep s.file) st).file k = none := by
  intro es
  induction es with
  | nil =>
    intro st _ h
    exact ⟨h, fun _ _ h2 => h2⟩
  | cons p es ih =>
    intro st hes h
    have hp : p ∈ s.keyIndex := hes p (List.mem_cons_self _ _)
    have hes2 : ∀ q ∈ es, q ∈ s.keyIndex := fun q hq => hes q (List.mem_cons_of_mem _ hq)
    rw [List.foldl_cons]
    by_cases hmem : p.1 ∈ st.written
    · have hstep : compactEntryStep s.file st p = st := by
        unfold compactEntryStep
        rw [if_pos hmem]
      rw [hstep]
      exact ih st hes2 h
    · cases hread : readFromSegment s.file p.2 with
      | error e =>
        have hstep : compactEntryStep s.file st p = st := by
          unfold compactEntryStep
          rw [if_neg hmem, hread]
        rw [hstep]
        exact ih st hes2 h
      | ok v =>
        have hstep : compactEntryStep s.file st p =
            ⟨st.file ++ [(p.1, v)], aset st.idx p.1 st.off,
              st.off + calculateEntryLength p.1 v, p.1 :: st.written⟩ := by
          unfold compactEntryStep
          rw [if_neg hmem, hread]
        rw [hstep]
        have h1 : CInv ⟨st.file ++ [(p.1, v)], aset st.idx p.1 st.off,
            st.off + calculateEntryLength p.1 v, p.1 :: st.written⟩ := by
          refine ⟨?_, ?_, ?_⟩
          · show OkIdx (aset st.idx p.1 st.off) (st.file ++ [(p.1, v)])
            rw [h.2.1]
            exact OkIdx_concat h.1 p.1 v
          · show st.off + calculateEntryLength p.1 v = byteLen (st.file ++ [(p.1, v)])
            rw [byteLen_append, h.2.1]
            simp [byteLen]
          · intro k
            show k ∈ p.1 :: st.written ↔ _
            rw [lastValue_concat]
            by_cases hk : k = p.1
            · subst hk
              simp
            · rw [if_neg hk]
              simp only [List.mem_cons, hk, false_or]
              exact h.2.2 k
        obtain ⟨h2, h3⟩ := ih _ hes2 h1
        refine ⟨h2, fun k hk1 hk2 => ?_⟩
        have hpk : p.1 ≠ k := by
          intro he
          obtain ⟨w, hw⟩ := lastValue_of_offsetOfLast s.file p.1 p.2 (hs.1 p hp)
          rw [he, hk1] at hw
          cases hw
        refine h3 k hk1 ?_
        show lastValue (st.file ++ [(p.1, v)]) k = none
        rw [lastValue_concat, if_neg (fun hkp => hpk hkp.symm)]
        exact hk2

/-- Walking one segment's index entries when every record of the segment
fits the bufio buffer: every positioned read succeeds, keys already
written are skipped, every other indexed key is appended with its most
recent value in that segment, so the accumulated view gains exactly that
segment's view as a fallback; the target file stays within the buffer
bound. -/
theorem compactEntryFold (s : Segment) (hs : s.Ok) (hsg : goodFile s.file) :
    ∀ (es : List (GoStr × Nat)) (st : CState),
      (∀ p ∈ es, p ∈ s.keyIndex) → CInv st → goodFile st.file →
      CInv (es.foldl (compactEntryStep s.file) st) ∧
      goodFile (es.foldl (compactEntryStep s.file) st).file ∧
      ∀ k, lastValue (es.foldl (compactEntryStep s.file) st).file k =
        ovr (lastValue st.file k)
          (if ∃ p ∈ es, p.1 = k then lastValue s.file k else none) := by
  intro es
  induction es with
  | nil =>
    intro st _ h hg
    refine ⟨h, hg, fun k => ?_⟩
    rw [if_neg (by simp)]
    exact (ovr_none_right _).symm
  | cons p es ih =>
    intro st hes h hg
    have hp : p ∈ s.keyIndex := hes p (List.mem_cons_self _ _)
    have hes2 : ∀ q ∈ es, q ∈ s.keyIndex := fun q hq => hes q (List.mem_cons_of_mem _ hq)
    rw [List.foldl_cons]
    by_cases hmem : p.1 ∈ st.written
    · have hstep : compactEntryStep s.file st p = st := by
        unfold compactEntryStep
        rw [if_pos hmem]
      rw [hstep]
      obtain ⟨h1, h2, h3⟩ := ih st hes2 h hg
      refine ⟨h1, h2, fun k => ?_⟩
      rw [h3 k]
      by_cases hk : p.1 = k
      · obtain ⟨w, hw⟩ := (h.2.2 k).mp (hk ▸ hmem)
        rw [hw]
        rfl
      · simp only [exists_key_cons_iff p es k hk]
    · have hol := hs.1 p hp
      obtain ⟨v, hv1, hv2⟩ := readFromSegment_offsetOfLast s.file p.1 p.2 hsg hol
      have hstep : compactEntryStep s.file st p =
          ⟨st.file ++ [(p.1, v)], aset st.idx p.1 st.off,
            st.off + calculateEntryLength p.1 v, p.1 :: st.written⟩ := by
        unfold compactEntryStep
        rw [if_neg hmem, hv2]
      rw [hstep]
      have hnone : lastValue st.file p.1 = none := by
        cases hl : lastValue st.file p.1 with
        | none => rfl
        | some w => exact absurd ((h.2.2 p.1).mpr ⟨w, hl⟩) hmem
      have h1 : CInv ⟨st.file ++ [(p.1, v)], aset st.idx p.1 st.off,
          st.off + calculateEntryLength p.1 v, p.1 :: st.written⟩ := by
        refine ⟨?_, ?_, ?_⟩
        · show OkIdx (aset st.idx p.1 st.off) (st.file ++ [(p.1, v)])
          rw [h.2.1]
          exact OkIdx_concat h.1 p.1 v
        · show st.off + calculateEntryLength p.1 v = byteLen (st.file ++ [(p.1, v)])
          rw [byteLen_append, h.2.1]
          simp [byteLen]
        · intro k
          show k ∈ p.1 :: st.written ↔ _
          rw [lastValue_concat]
          by_cases hk : k = p.1
          · subst hk
            simp
          · rw [if_neg hk]
            simp only [List.mem_cons, hk, false_or]
            exact h.2.2 k
      have hg1 : goodFile (st.file ++ [(p.1, v)]) := by
        intro r hr
        rcases List.mem_append.mp hr with hr1 | hr2
        · exact hg r hr1
        · have hr3 : r = (p.1, v) := by simpa using hr2
          rw [hr3]
          exact hsg (p.1, v) (lastValue_mem s.file p.1 v hv1)
      obtain ⟨h2, h2g, h3⟩ := ih _ hes2 h1 hg1
      refine ⟨h2, h2g, fun k => ?_⟩
      rw [h3 k]
      have hlv1 : lastValue (st.file ++ [(p.1, v)]) k =
          if k = p.1 then some v else lastValue st.file k := lastValue_concat _ _ _ _
      by_cases hk : k = p.1
      · subst hk
        rw [hlv1, if_pos rfl]
        have hex : ∃ q ∈ p :: es, q.1 = p.1 := ⟨p, List.mem_cons_self _ _, rfl⟩
        rw [hnone, if_pos hex, hv1]
        rfl
      · rw [hlv1, if_neg hk]
        simp only [exists_key_cons_iff p es k (fun hp1 => hk hp1.symm)]

/-- Scanning a list of segments preserves the compaction-state invariant
and writes no record of a key absent from all the scanned segments. -/
theorem compactSegFold_weak (ss : List Segment) (hOk : ∀ s ∈ ss, s.Ok) :
    ∀ st : CState, CInv st →
      CInv (ss.foldl compactSegStep st) ∧
      ∀ k, (∀ s ∈ ss, lastValue s.file k = none) → lastValue st.file k = none →
        lastValue (ss.foldl compactSegStep st).file k = none := by
  induction ss with
  | nil =>
    intro st h
    exact ⟨h, fun _ _ h2 => h2⟩
  | cons s rest ih =>
    intro st h
    have hsOk : s.Ok := hOk s (List.mem_cons_self _ _)
    obtain ⟨h1, h2⟩ := compactEntryFold_weak s hsOk s.keyIndex st (fun _ hp => hp) h
    obtain ⟨h3, h4⟩ := ih (fun t ht => hOk t (List.mem_cons_of_mem _ ht))
      (compactSegStep st s) h1
    rw [List.foldl_cons]
    refine ⟨h3, fun k hnone hst => ?_⟩
    refine h4 k (fun t ht => hnone t (List.mem_cons_of_mem _ ht)) ?_
    exact h2 k (hnone s (List.mem_cons_self _ _)) hst

/-- Scanning a list of segments newest-first when every record fits the
bufio buffer accumulates exactly the newest-first view of those
segments, staying within the buffer bound. -/
theorem compactSegFold (ss : List Segment) (hOk : ∀ s ∈ ss, s.Ok)
    (hgAll : ∀ s ∈ ss, goodFile s.file) :
    ∀ st : CState, CInv st → goodFile st.file →
      CInv (ss.foldl compactSegStep st) ∧
      goodFile (ss.foldl compactSegStep st).file ∧
      ∀ k, lastValue (ss.foldl compactSegStep st).file k =
        ovr (lastValue st.file k) (newestView ss k) := by
  induction ss with
  | nil =>
    intro st h hg
    exact ⟨h, hg, fun _ => (ovr_none_right _).symm⟩
  | cons s rest ih =>
    intro st h hg
    have hsOk : s.Ok := hOk s (List.mem_cons_self _ _)
    have hsg : goodFile s.file := hgAll s (List.mem_cons_self _ _)
    obtain ⟨h1, h1g, h2⟩ := compactEntryFold s hsOk hsg s.keyIndex st (fun _ hp => hp) h hg
    have hKey : ∀ k, (if ∃ p ∈ s.keyIndex, p.1 = k then lastValue s.file k else none) =
        lastValue s.file k := by
      intro k
      by_cases hx : ∃ p ∈ s.keyIndex, p.1 = k
      · rw [if_pos hx]
      · rw [if_neg hx]
        cases hl : lastValue s.file k with
        | none => rfl
        | some v =>
          obtain ⟨r, hr, hrk⟩ := (lastValue_some_iff _ _).mp ⟨v, hl⟩
          obtain ⟨p, hp, hpk⟩ := hsOk.2 r hr
          exact absurd ⟨p, hp, hpk.trans hrk⟩ hx
    obtain ⟨h3, h3g, h4⟩ := ih (fun t ht => hOk t (List.mem_cons_of_mem _ ht))
      (fun t ht => hgAll t (List.mem_cons_of_mem _ ht)) (compactSegStep st s) h1 h1g
    refine ⟨h3, h3g, fun k => ?_⟩
    rw [List.foldl_cons, h4 k]
    show ovr (lastValue (compactSegStep st s).file k) (newestView rest k) = _
    rw [show (compactSegStep st s).file = (s.keyIndex.foldl (compactEntryStep s.file) st).file
          from rfl,
        h2 k, hKey k, newestView]
    exact ovr_assoc _ _ _

theorem take_length_sub_one {α : Type} (l : List α) : l.take (l.length - 1) = l.dropLast :=
  (List.dropLast_eq_take l).symm

/-- What one compaction pass does to a store with at least three segments:
it preserves the closed flag, the current offset, the size limit and the
active (last) segment; it leaves exactly two segments with the active
segment at the tail; it never introduces a record of a key the store did
not hold; and when every record of the store fits the bufio buffer, the
consolidation target holds the newest-first merged view of all scanned
segments (all segments except the active one) and every key's most
recent value is unchanged. -/
theorem compact_spec (db : Db) (h : db.Inv) (hlen : 3 ≤ db.segments.length) :
    (db.compactOldSegments).Inv ∧
    (db.compactOldSegments).closed = db.closed ∧
    (db.compactOldSegments).currentOffset = db.currentOffset ∧
    (db.compactOldSegments).maxSegmentSize = db.maxSegmentSize ∧
    (db.compactOldSegments).segments.getLast? = db.segments.getLast? ∧
    (db.compactOldSegments).segments.length = 2 ∧
    (∀ k, lastValue db.recs k = none → lastValue (db.compactOldSegments).recs k = none) ∧
    (db.Good →
      (db.compactOldSegments).Good ∧
      (∃ t, (db.compactOldSegments).segments.head? = some t ∧
        ∀ k, lastValue t.file k = lastValue (segsRecs db.segments.dropLast) k) ∧
      ∀ k, lastValue (db.compactOldSegments).recs k = lastValue db.recs k) := by
  have hne : db.segments ≠ [] := by
    intro h0
    rw [h0] at hlen
    simp at hlen
  obtain ⟨lastSeg, hlast⟩ := getLast?_exists_of_ne_nil hne
  have hdecomp := getLast?_decomp _ _ hlast
  have hnot : ¬ (db.segments.length < 3) := by omega
  have hcomp : db.compactOldSegments =
      { db with
        segmentCounter := db.segmentCounter + 1
        segments := [⟨db.segmentCounter,
          (((db.segments.take (db.segments.length - 1)).reverse).foldl
            compactSegStep ⟨[], [], 0, []⟩).idx,
          (((db.segments.take (db.segments.length - 1)).reverse).foldl
            compactSegStep ⟨[], [], 0, []⟩).file⟩,
          lastSeg] } := by
    unfold Db.compactOldSegments
    rw [if_neg hnot]
    simp only [hlast]
  set st := ((db.segments.take (db.segments.length - 1)).reverse).foldl
    compactSegStep ⟨[], [], 0, []⟩ with hst
  have hscanOk : ∀ s ∈ (db.segments.take (db.segments.length - 1)).reverse, s.Ok := by
    intro s hs
    exact h.2.1 s (List.take_subset _ _ (List.mem_reverse.mp hs))
  have hinit : CInv ⟨[], [], 0, []⟩ := by
    refine ⟨⟨?_, ?_⟩, rfl, ?_⟩
    · intro p hp
      cases hp
    · intro r hr
      cases hr
    · intro k
      constructor
      · intro hk
        cases hk
      · rintro ⟨v, hv⟩
        cases hv
  obtain ⟨hCInv, hWeak⟩ := compactSegFold_weak _ hscanOk ⟨[], [], 0, []⟩ hinit
  have hOkLast : lastSeg.Ok := h.2.1 lastSeg (mem_of_getLast? hlast)
  have hActive : db.activeFileRecs = lastSeg.file := by
    unfold Db.activeFileRecs
    rw [hlast]
  have hrecsOld : ∀ k, lastValue db.recs k =
      ovr (lastValue lastSeg.file k) (lastValue (segsRecs db.segments.dropLast) k) := by
    intro k
    show lastValue (segsRecs db.segments) k = _
    rw [show segsRecs db.segments = segsRecs (db.segments.dropLast ++ [lastSeg]) from by
          rw [← hdecomp],
        segsRecs_append, lastValue_append]
    show ovr (lastValue (lastSeg.file ++ segsRecs []) k) _ = _
    rw [show lastSeg.file ++ segsRecs [] = lastSeg.file from by simp [segsRecs]]
  rw [hcomp]
  refine ⟨⟨by simp, ?_, ?_⟩, rfl, rfl, rfl, hlast.symm, rfl, ?_, ?_⟩
  · intro s hs
    rcases List.mem_cons.mp hs with rfl | hs2
    · exact hCInv.1
    · have hs3 : s = lastSeg := by simpa using hs2
      rw [hs3]
      exact hOkLast
  · show db.currentOffset = byteLen lastSeg.file
    rw [h.2.2, hActive]
  · -- no new keys: a key absent from the store misses the scanned
    -- segments and the retained active segment alike
    intro k hk
    have hk2 := hrecsOld k
    rw [hk] at hk2
    obtain ⟨hkLast, hkDrop⟩ := (ovr_none_iff _ _).mp hk2.symm
    have hkScan : ∀ s ∈ (db.segments.take (db.segments.length - 1)).reverse,
        lastValue s.file k = none := by
      intro s hs
      rw [take_length_sub_one] at hs
      exact lastValue_segsRecs_none _ k hkDrop s (List.mem_reverse.mp hs)
    have hkSt : lastValue st.file k = none := hWeak k hkScan rfl
    show lastValue (segsRecs [_, lastSeg]) k = none
    rw [show segsRecs [(⟨db.segmentCounter, st.idx, st.file⟩ : Segment), lastSeg] =
          st.file ++ lastSeg.file from by simp [segsRecs],
        lastValue_append, hkSt, hkLast]
    rfl
  · -- the conditional (buffer-fitting) half
    intro hg
    have hscanGood : ∀ s ∈ (db.segments.take (db.segments.length - 1)).reverse,
        goodFile s.file := by
      intro s hs
      exact hg s (List.take_subset _ _ (List.mem_reverse.mp hs))
    have hinitg : goodFile (⟨[], [], 0, []⟩ : CState).file := by
      intro r hr
      cases hr
    obtain ⟨_, hGood, hview⟩ := compactSegFold _ hscanOk hscanGood ⟨[], [], 0, []⟩ hinit hinitg
    have htview : ∀ k, lastValue st.file k =
        lastValue (segsRecs db.segments.dropLast) k := by
      intro k
      rw [hst, hview k]
      show ovr none _ = _
      rw [show ovr none (newestView (db.segments.take (db.segments.length - 1)).reverse k) =
        newestView (db.segments.take (db.segments.length - 1)).reverse k from rfl]
      rw [newestView_reverse, take_length_sub_one]
    refine ⟨?_, ⟨_, rfl, htview⟩, ?_⟩
    · intro s hs
      rcases List.mem_cons.mp hs with rfl | hs2
      · exact hGood
      · have hs3 : s = lastSeg := by simpa using hs2
        rw [hs3]
        exact hg lastSeg (mem_of_getLast? hlast)
    · intro k
      show lastValue (segsRecs [_, lastSeg]) k = _
      rw [show segsRecs [(⟨db.segmentCounter, st.idx, st.file⟩ : Segment), lastSeg] =
            st.file ++ lastSeg.file from by simp [segsRecs],
          lastValue_append, htview k, hrecsOld k]

/-! ## Rollover and the write path -/

theorem mem_of_mem_dropLast {α : Type} {l : List α} {a : α} (h : a ∈ l.dropLast) :
    a ∈ l := by
  rw [← take_length_sub_one] at h
  exact List.take_subset _ _ h

theorem mem_segsRecs {segs : List Segment} {s : Segment} {r : Rec}
    (hs : s ∈ segs) (hr : r ∈ s.file) : r ∈ segsRecs segs := by
  induction segs with
  | nil => cases hs
  | cons t rest ih =>
    rcases List.mem_cons.mp hs with rfl | hs2
    · exact List.mem_append.mpr (Or.inl hr)
    · exact List.mem_append.mpr (Or.inr (ih hs2))

/-- Creating a fresh active segment preserves the invariant, reopens the
store, introduces no record of an absent key, and — when every record of
the store fits the bufio buffer — preserves every key's most recent
value (the new file is empty; a triggered compaction pass preserves the
view by `compact_spec`). -/
theorem initSeg_spec (db : Db) (h : db.Inv) :
    (db.initNewSegment).Inv ∧ (db.initNewSegment).closed = false ∧
    (db.initNewSegment).maxSegmentSize = db.maxSegmentSize ∧
    (∀ k, lastValue db.recs k = none → lastValue (db.initNewSegment).recs k = none) ∧
    (db.Good → (db.initNewSegment).Good ∧
      ∀ k, lastValue (db.initNewSegment).recs k = lastValue db.recs k) := by
  set dbA : Db := { db with
    segmentCounter := db.segmentCounter + 1
    closed := false
    currentOffset := 0
    segments := db.segments ++ [⟨db.segmentCounter, [], []⟩] } with hA
  have hInit : db.initNewSegment =
      if 3 ≤ dbA.segments.length then dbA.compactOldSegments else dbA := rfl
  have hseg : dbA.segments = db.segments ++ [⟨db.segmentCounter, [], []⟩] := rfl
  have hAInv : dbA.Inv := by
    refine ⟨by rw [hseg]; simp, ?_, ?_⟩
    · intro s hs
      rw [hseg] at hs
      rcases List.mem_append.mp hs with hs1 | hs2
      · exact h.2.1 s hs1
      · have hs3 : s = ⟨db.segmentCounter, [], []⟩ := by simpa using hs2
        rw [hs3]
        exact ⟨fun p hp => absurd hp (by simp), fun r hr => absurd hr (by simp)⟩
    · show (0 : Nat) = byteLen dbA.activeFileRecs
      have ha : dbA.activeFileRecs = [] := by
        unfold Db.activeFileRecs
        rw [hseg, List.getLast?_concat]
      rw [ha]
      rfl
  have hAview : ∀ k, lastValue dbA.recs k = lastValue db.recs k := by
    intro k
    show lastValue (segsRecs dbA.segments) k = _
    rw [hseg, segsRecs_append]
    rw [show segsRecs [(⟨db.segmentCounter, [], []⟩ : Segment)] = [] from rfl,
        List.append_nil]
    rfl
  have hAGood : db.Good → dbA.Good := by
    intro hg s hs
    rw [hseg] at hs
    rcases List.mem_append.mp hs with hs1 | hs2
    · exact hg s hs1
    · have hs3 : s = ⟨db.segmentCounter, [], []⟩ := by simpa using hs2
      rw [hs3]
      intro r hr
      cases hr
  rcases Nat.lt_or_ge dbA.segments.length 3 with h3 | h3
  · rw [hInit, if_neg (by omega)]
    exact ⟨hAInv, rfl, rfl, fun k hk => by rw [hAview k]; exact hk,
      fun hg => ⟨hAGood hg, hAview⟩⟩
  · rw [hInit, if_pos h3]
    obtain ⟨c1, c2, _, c4, _, _, c7, ccond⟩ := compact_spec dbA hAInv h3
    refine ⟨c1, by rw [c2], by rw [c4], ?_, ?_⟩
    · intro k hk
      exact c7 k (by rw [hAview k]; exact hk)
    · intro hg
      obtain ⟨cg, _, c8⟩ := ccond (hAGood hg)
      exact ⟨cg, fun k => by rw [c8 k, hAview k]⟩

/-- A `Put` on an open, structurally sound store always succeeds, keeps the
store sound and open, makes the written key's most recent value the
written value, introduces no record of any other absent key, and — when
the store and the new record fit the bufio buffer — updates exactly the
written key's most recent value while keeping the store within the
buffer bound. -/
theorem put_spec (db : Db) (h : db.Inv) (hOpen : db.closed = false) (key value : GoStr) :
    ∃ db2, db.put key value = Except.ok db2 ∧ db2.Inv ∧ db2.closed = false ∧
      db2.maxSegmentSize = db.maxSegmentSize ∧
      lastValue db2.recs key = some value ∧
      (∀ k, k ≠ key → lastValue db.recs k = none → lastValue db2.recs k = none) ∧
      (db.Good → calculateEntryLength key value ≤ 4096 →
        db2.Good ∧
        ∀ k, lastValue db2.recs k = if k = key then some value else lastValue db.recs k) := by
  set db1 := if (byteLen db.activeFileRecs : Int) + (calculateEntryLength key value : Int) >
      db.maxSegmentSize then db.initNewSegment else db with hdb1
  have hP : db1.Inv ∧ db1.closed = false ∧ db1.maxSegmentSize = db.maxSegmentSize ∧
      (∀ k, lastValue db.recs k = none → lastValue db1.recs k = none) ∧
      (db.Good → db1.Good ∧ ∀ k, lastValue db1.recs k = lastValue db.recs k) := by
    rw [hdb1]
    by_cases hroll : (byteLen db.activeFileRecs : Int) +
        (calculateEntryLength key value : Int) > db.maxSegmentSize
    · rw [if_pos hroll]
      exact initSeg_spec db h
    · rw [if_neg hroll]
      exact ⟨h, hOpen, rfl, fun _ hk => hk, fun hg => ⟨hg, fun _ => rfl⟩⟩
  obtain ⟨hInv1, hcl1, hmax1, hweak1, hcond1⟩ := hP
  obtain ⟨seg, hseg⟩ := getLast?_exists_of_ne_nil hInv1.1
  have hsegOk : seg.Ok := hInv1.2.1 seg (mem_of_getLast? hseg)
  have hoff : db1.currentOffset = byteLen seg.file := by
    have ha : db1.activeFileRecs = seg.file := by
      unfold Db.activeFileRecs
      rw [hseg]
    rw [hInv1.2.2, ha]
  have hd : db1.segments = db1.segments.dropLast ++ [seg] := getLast?_decomp _ _ hseg
  have hput : db.put key value = Except.ok { db1 with
      segments := db1.segments.dropLast ++
        [⟨seg.suffix, aset seg.keyIndex key db1.currentOffset, seg.file ++ [(key, value)]⟩]
      currentOffset := db1.currentOffset + calculateEntryLength key value } := by
    unfold Db.put
    rw [hOpen, if_neg (by simp), ← hdb1]
    simp only [hseg]
  have hrecs2 : ∀ k, lastValue ({ db1 with
      segments := db1.segments.dropLast ++
        [⟨seg.suffix, aset seg.keyIndex key db1.currentOffset, seg.file ++ [(key, value)]⟩]
      currentOffset := db1.currentOffset + calculateEntryLength key value } : Db).recs k =
      if k = key then some value else lastValue db1.recs k := by
    intro k
    show lastValue (segsRecs (db1.segments.dropLast ++
      [⟨seg.suffix, aset seg.keyIndex key db1.currentOffset, seg.file ++ [(key, value)]⟩])) k = _
    rw [segsRecs_append,
        show segsRecs [(⟨seg.suffix, aset seg.keyIndex key db1.currentOffset,
          seg.file ++ [(key, value)]⟩ : Segment)] = (seg.file ++ [(key, value)]) ++ []
          from rfl,
        List.append_nil, ← List.append_assoc, lastValue_concat]
    have hrecs : segsRecs db1.segments.dropLast ++ seg.file = db1.recs := by
      show _ = segsRecs db1.segments
      rw [show segsRecs db1.segments = segsRecs (db1.segments.dropLast ++ [seg]) from by
            rw [← hd],
          segsRecs_append,
          show segsRecs [seg] = seg.file ++ [] from rfl, List.append_nil]
    rw [hrecs]
  refine ⟨_, hput, ⟨by simp, ?_, ?_⟩, hcl1, hmax1, ?_, ?_, ?_⟩
  · intro s hs
    rcases List.mem_append.mp hs with hs1 | hs2
    · exact hInv1.2.1 s (mem_of_mem_dropLast hs1)
    · have hs3 : s = ⟨seg.suffix, aset seg.keyIndex key db1.currentOffset,
          seg.file ++ [(key, value)]⟩ := by simpa using hs2
      rw [hs3]
      show OkIdx (aset seg.keyIndex key db1.currentOffset) (seg.file ++ [(key, value)])
      rw [hoff]
      exact OkIdx_concat hsegOk key value
  · show db1.currentOffset + calculateEntryLength key value = byteLen _
    have ha : ({ db1 with
        segments := db1.segments.dropLast ++
          [⟨seg.suffix, aset seg.keyIndex key db1.currentOffset, seg.file ++ [(key, value)]⟩]
        currentOffset := db1.currentOffset + calculateEntryLength key value } : Db).activeFileRecs
        = seg.file ++ [(key, value)] := by
      unfold Db.activeFileRecs
      rw [show ({ db1 with
        segments := db1.segments.dropLast ++
          [⟨seg.suffix, aset seg.keyIndex key db1.currentOffset, seg.file ++ [(key, value)]⟩]
        currentOffset := db1.currentOffset + calculateEntryLength key value } : Db).segments
        = db1.segments.dropLast ++
          [⟨seg.suffix, aset seg.keyIndex key db1.currentOffset, seg.file ++ [(key, value)]⟩]
        from rfl]
      rw [List.getLast?_concat]
    rw [ha, byteLen_append, hoff]
    simp [byteLen]
  · rw [hrecs2 key, if_pos rfl]
  · intro k hk hnone
    rw [hrecs2 k, if_neg hk]
    exact hweak1 k hnone
  · intro hg hrec
    obtain ⟨hg1, hview1⟩ := hcond1 hg
    constructor
    · intro s hs
      rcases List.mem_append.mp hs with hs1 | hs2
      · exact hg1 s (mem_of_mem_dropLast hs1)
      · have hs3 : s = ⟨seg.suffix, aset seg.keyIndex key db1.currentOffset,
            seg.file ++ [(key, value)]⟩ := by simpa using hs2
        rw [hs3]
        intro r hr
        rcases List.mem_append.mp hr with hr1 | hr2
        · exact hg1 seg (mem_of_getLast? hseg) r hr1
        · have hr3 : r = (key, value) := by simpa using hr2
          rw [hr3]
          exact hrec
    · intro k
      rw [hrecs2 k]
      by_cases hk : k = key
      · rw [if_pos hk, if_pos hk]
      · rw [if_neg hk, if_neg hk, hview1 k]

/-! ## Whole-session behaviour -/

/-- Running any sequence of puts from a store opened on an empty directory
keeps the invariant, keeps the store open, and gives keys never put no
record (this holds with no bound on record sizes — `Put` never reads). -/
theorem applyPuts_spec (sz : Int) (ps : List Rec) :
    (applyPuts (Db.create [] sz) ps).Inv ∧
    (applyPuts (Db.create [] sz) ps).closed = false ∧
    ∀ k, k ∉ ps.map Prod.fst → lastValue (applyPuts (Db.create [] sz) ps).recs k = none := by
  induction ps using List.reverseRecOn with
  | nil =>
    refine ⟨⟨by simp [applyPuts, Db.create, Db.initNewSegment], ?_, rfl⟩, rfl,
      fun _ _ => rfl⟩
    intro s hs
    have hs2 : s = ⟨0, [], []⟩ := by
      simpa [applyPuts, Db.create, Db.initNewSegment] using hs
    rw [hs2]
    exact ⟨fun p hp => absurd hp (by simp), fun r hr => absurd hr (by simp)⟩
  | append_singleton ps p ih =>
    obtain ⟨h1, h2, h3⟩ := ih
    rw [show applyPuts (Db.create [] sz) (ps ++ [p]) =
        (applyPuts (Db.create [] sz) ps).putD p.1 p.2 from by
      unfold applyPuts
      rw [List.foldl_append]
      rfl]
    obtain ⟨db2, hok, hI, hcl, _, _, hweak, _⟩ := put_spec _ h1 h2 p.1 p.2
    rw [show (applyPuts (Db.create [] sz) ps).putD p.1 p.2 = db2 from by
      unfold Db.putD
      rw [hok]]
    refine ⟨hI, hcl, fun k hk => ?_⟩
    have hk1 : k ∉ ps.map Prod.fst := by
      intro hc
      exact hk (by rw [List.map_append]; exact List.mem_append.mpr (Or.inl hc))
    have hk2 : k ≠ p.1 := by
      intro hc
      exact hk (by rw [List.map_append]; simp [hc])
    exact hweak k hk2 (h3 k hk1)

/-- When every put of the sequence fits the bufio buffer, the store's view
after the sequence is exactly the last-write view of the sequence, and
the store stays within the buffer bound. -/
theorem applyPuts_good (sz : Int) : ∀ ps : List Rec,
    (∀ p ∈ ps, calculateEntryLength p.1 p.2 ≤ 4096) →
    (applyPuts (Db.create [] sz) ps).Good ∧
    ∀ k, lastValue (applyPuts (Db.create [] sz) ps).recs k = lastValue ps k := by
  intro ps
  induction ps using List.reverseRecOn with
  | nil =>
    intro _
    refine ⟨?_, fun _ => rfl⟩
    intro s hs
    have hs2 : s = ⟨0, [], []⟩ := by
      simpa [applyPuts, Db.create, Db.initNewSegment] using hs
    rw [hs2]
    intro r hr
    cases hr
  | append_singleton ps p ih =>
    intro hgood
    obtain ⟨h1, h2, _⟩ := applyPuts_spec sz ps
    obtain ⟨hG, hview⟩ := ih (fun q hq => hgood q (List.mem_append.mpr (Or.inl hq)))
    rw [show applyPuts (Db.create [] sz) (ps ++ [p]) =
        (applyPuts (Db.create [] sz) ps).putD p.1 p.2 from by
      unfold applyPuts
      rw [List.foldl_append]
      rfl]
    obtain ⟨db2, hok, _, _, _, _, _, hcond⟩ := put_spec _ h1 h2 p.1 p.2
    obtain ⟨hG2, hview2⟩ := hcond hG (hgood p (by simp))
    rw [show (applyPuts (Db.create [] sz) ps).putD p.1 p.2 = db2 from by
      unfold Db.putD
      rw [hok]]
    refine ⟨hG2, fun k => ?_⟩
    rw [hview2 k, lastValue_concat]
    by_cases hk : k = p.1
    · rw [if_pos hk, if_pos hk]
    · rw [if_neg hk, if_neg hk, hview k]

/-- Every put of the sequence returns success when run in order. -/
def allPutsOk : Db → List Rec → Prop
  | _, [] => True
  | db, p :: ps =>
    match db.put p.1 p.2 with
    | Except.ok db2 => allPutsOk db2 ps
    | Except.error _ => False

theorem allPutsOk_of_inv (ps : List Rec) :
    ∀ db : Db, db.Inv → db.closed = false → allPutsOk db ps := by
  induction ps with
  | nil =>
    intro db _ _
    trivial
  | cons p ps ih =>
    intro db h hOpen
    obtain ⟨db2, hok, hI, hcl, _, _, _, _⟩ := put_spec db h hOpen p.1 p.2
    unfold allPutsOk
    rw [hok]
    exact ih db2 hI hcl

/-! ## The store-level claims -/

/-- The record `([1], 0^5000)` is unreadable from a segment file: its
5033-byte encoding exceeds the 4096-byte bufio buffer, so the single
value `Read` of `readValue` is short. -/
theorem readFromSegment_big5000 :
    readFromSegment [([1], List.replicate 5000 0)] 0 =
      Except.error RVErr.incompleteValue := by
  show readValue ((segBytes [([1], List.replicate 5000 0)]).drop 0) = _
  rw [List.drop_zero]
  show readValue (encode [1] (List.replicate 5000 0) ++ []) = _
  exact readValue_incomplete [1] (List.replicate 5000 0) [] (by decide)
    (by rw [List.length_replicate]; decide) (by rw [List.length_replicate]; decide)

/-- A single buffer-fitting record reads back from offset 0. -/
theorem readFromSegment_single (k v : GoStr) (hbound : calculateEntryLength k v ≤ 4096) :
    readFromSegment [(k, v)] 0 = Except.ok v := by
  show readValue ((segBytes [(k, v)]).drop 0) = _
  rw [List.drop_zero]
  show readValue (encode k v ++ []) = _
  exact readValue_encode k v [] hbound

/-- The store reached by putting `([1], 0^5000)` into a fresh store with
`maxSegmentSize = 10000`.  The offset field is kept as the unevaluated
expression `Put` produces, so that no proof needs to walk the 5000-byte
value just to compute its length. -/
def db1cx : Db :=
  ⟨[⟨0, [([1], 0)], [([1], List.replicate 5000 0)]⟩],
    (⟨[⟨0, [], []⟩], 0, 10000, 1, false⟩ : Db).currentOffset +
      calculateEntryLength [1] (List.replicate 5000 0), 10000, 1, false⟩

/-- Claim C1, counterexample: on a store opened on an empty directory with
`maxSegmentSize = 10000`, the single put of key `[1]` with a 5000-byte
value returns success (`Write` succeeds and the key is indexed), yet the
following get of `[1]` does not return that value: the 5033-byte encoded
record exceeds the 4096-byte bufio buffer, the value read is short, and
`Get` returns the incomplete-value-read error.  Reads, not writes, are
what bound a record's size, so "get returns the value of the most recent
successful put" fails. -/
theorem C1_counterexample :
    allPutsOk (Db.create [] 10000) [([1], List.replicate 5000 0)] ∧
    lastValue [([1], List.replicate 5000 0)] [1] = some (List.replicate 5000 0) ∧
    (applyPuts (Db.create [] 10000) [([1], List.replicate 5000 0)]).get [1] =
      Except.error DbError.corruptRecord := by
  have h0 : Db.create [] 10000 = ⟨[⟨0, [], []⟩], 0, 10000, 1, false⟩ := rfl
  have hlen : (List.replicate 5000 (0 : Nat)).length = 5000 := List.length_replicate ..
  have hcl : calculateEntryLength [1] (List.replicate 5000 0) = 5033 := by
    unfold calculateEntryLength
    rw [hlen]
    decide
  have hofs : (⟨[⟨0, [], []⟩], 0, 10000, 1, false⟩ : Db).activeFileRecs = [] := rfl
  have hput : (⟨[⟨0, [], []⟩], 0, 10000, 1, false⟩ : Db).put [1]
      (List.replicate 5000 0) = Except.ok db1cx := by
    unfold Db.put
    rw [if_neg (show ¬ (⟨[⟨0, [], []⟩], 0, 10000, 1, false⟩ : Db).closed = true from
      by decide)]
    rw [if_neg (show ¬ ((byteLen (⟨[⟨0, [], []⟩], 0, 10000, 1, false⟩ :
        Db).activeFileRecs : Int) +
        (calculateEntryLength [1] (List.replicate 5000 0) : Int) >
        (⟨[⟨0, [], []⟩], 0, 10000, 1, false⟩ : Db).maxSegmentSize) from by
      rw [hofs, hcl]
      decide)]
    rfl
  have happ : applyPuts (Db.create [] 10000) [([1], List.replicate 5000 0)] = db1cx := by
    simp only [applyPuts, List.foldl_cons, List.foldl_nil]
    unfold Db.putD
    rw [h0, hput]
  have hget : db1cx.get [1] = Except.error DbError.corruptRecord := by
    have hfind : db1cx.findKeyLocation [1] =
        some (⟨0, [([1], 0)], [([1], List.replicate 5000 0)]⟩, 0) := rfl
    simp only [Db.get, hfind, readFromSegment_big5000, dbErrOfRV]
  refine ⟨?_, rfl, by rw [happ]; exact hget⟩
  simp only [allPutsOk, h0, hput]

/-- Claim C1 (amended): for every store opened on an empty directory and
every sequence of puts whose records each fit the 4096-byte bufio buffer
(`len(key) + len(value) + 32 ≤ 4096`), followed by a get of a key that
was put, all the puts succeed and the get returns the value of the most
recent put of that key (read-your-writes across one process session).
Larger records break the property on the read side
(`C1_counterexample`), and reopened directories break it through the
counter-reuse bug of C8. -/
theorem C1_read_your_writes (sz : Int) (ps : List Rec) (k v : GoStr)
    (hgood : ∀ p ∈ ps, calculateEntryLength p.1 p.2 ≤ 4096)
    (h : lastValue ps k = some v) :
    allPutsOk (Db.create [] sz) ps ∧
    (applyPuts (Db.create [] sz) ps).get k = Except.ok v := by
  obtain ⟨h1, _, _⟩ := applyPuts_spec sz ps
  obtain ⟨hG, hview⟩ := applyPuts_good sz ps hgood
  obtain ⟨h0, hc0, _⟩ := applyPuts_spec sz []
  refine ⟨allPutsOk_of_inv ps (Db.create [] sz) h0 hc0, ?_⟩
  rw [Db.get_eq_view _ h1 hG k, hview k, h]

theorem C1_witness :
    (∀ p ∈ ([([1], [2]), ([1], [3])] : List Rec), calculateEntryLength p.1 p.2 ≤ 4096) ∧
    lastValue [([1], [2]), ([1], [3])] [1] = some [3] ∧
    (allPutsOk (Db.create [] 100) [([1], [2]), ([1], [3])] ∧
      (applyPuts (Db.create [] 100) [([1], [2]), ([1], [3])]).get [1] = Except.ok [3]) :=
  ⟨by decide, by decide,
    C1_read_your_writes 100 [([1], [2]), ([1], [3])] [1] [3] (by decide) (by decide)⟩

/-- Claim C2: for every key that was never put into a store opened on an
empty directory, `Get` returns the key-not-found error — no segment
indexes the key, so the newest-first lookup misses everywhere and no
file is ever read. -/
theorem C2_never_put_not_found (sz : Int) (ps : List Rec) (k : GoStr)
    (h : k ∉ ps.map Prod.fst) :
    (applyPuts (Db.create [] sz) ps).get k = Except.error DbError.keyNotFound := by
  obtain ⟨h1, _, h3⟩ := applyPuts_spec sz ps
  exact Db.get_none _ h1 k (h3 k h)

theorem C2_witness :
    ([3] : GoStr) ∉ ([([1], [2])] : List Rec).map Prod.fst ∧
    (applyPuts (Db.create [] 100) [([1], [2])]).get [3] =
      Except.error DbError.keyNotFound :=
  ⟨by decide, C2_never_put_not_found 100 [([1], [2])] [3] (by decide)⟩

/-- A store with two frozen segments (key `[1]` in the oldest, key `[2]`
in the most recently frozen) and an empty active segment, as reached right
after the rollover that triggers compaction. -/
def db5cx : Db :=
  ⟨[⟨0, [([1], 0)], [([1], [5])]⟩, ⟨1, [([2], 0)], [([2], [6])]⟩, ⟨2, [], []⟩],
    0, 100, 3, false⟩

theorem readFromSegment_db5a : readFromSegment [([1], [5])] 0 = Except.ok [5] :=
  readFromSegment_single [1] [5] (by decide)

theorem readFromSegment_db5b : readFromSegment [([2], [6])] 0 = Except.ok [6] :=
  readFromSegment_single [2] [6] (by decide)

/-- One compaction pass on `db5cx`, as an explicit store. -/
theorem db5cx_compact : db5cx.compactOldSegments =
    ⟨[⟨3, [([1], 34), ([2], 0)], [([2], [6]), ([1], [5])]⟩, ⟨2, [], []⟩],
      0, 100, 4, false⟩ := by
  unfold Db.compactOldSegments
  rw [if_neg (show ¬ db5cx.segments.length < 3 from by decide)]
  simp only [show ({ db5cx with segmentCounter := db5cx.segmentCounter + 1 } :
    Db).segments.getLast? = some ⟨2, [], []⟩ from rfl]
  simp only [show (({ db5cx with segmentCounter := db5cx.segmentCounter + 1 } :
      Db).segments.take (({ db5cx with segmentCounter := db5cx.segmentCounter + 1 } :
      Db).segments.length - 1)).reverse =
    [⟨1, [([2], 0)], [([2], [6])]⟩, ⟨0, [([1], 0)], [([1], [5])]⟩] from rfl]
  simp only [List.foldl_cons, List.foldl_nil, compactSegStep, compactEntryStep,
    readFromSegment_db5a, readFromSegment_db5b]
  rfl

/-- Claim C5, counterexample: on `db5cx` the claim predicts that the scan
excludes the most recently frozen segment (so the consolidation target
holds only key `[1]`) and that the post-compaction set is
`[target, most_recently_frozen]` with files `[[([1],[5])], [([2],[6])]]`.
The code instead scans indices `len-2 .. 0` — which includes the most
recently frozen segment — and retains the active segment, producing files
`[[([2],[6]), ([1],[5])], []]`. -/
theorem C5_counterexample :
    (db5cx.compactOldSegments).segments.map Segment.file ≠
      [[([1], [5])], [([2], [6])]] ∧
    (db5cx.compactOldSegments).segments.map Segment.file =
      [[([2], [6]), ([1], [5])], []] := by
  rw [db5cx_compact]
  constructor
  · decide
  · decide

/-- Claim C5 (amended): a compaction pass on a store with at least three
segments, all of whose records fit the bufio buffer, scans the segments
from index `len-2` down to `0` — all frozen segments including the most
recently frozen one; only the active tail segment is excluded — and
replaces the segment set with `[consolidation_target, active_segment]`,
so exactly two segments remain with the active segment still at the
tail, and every key indexed in the most recently frozen segment is
present in the consolidation target.  (A record larger than the buffer
is skipped by the pass — its read errors — so the buffer bound is what
makes the last conjunct hold.) -/
theorem C5_compaction_shape (db : Db) (h : db.Inv) (hg : db.Good)
    (hlen : 3 ≤ db.segments.length) :
    (db.compactOldSegments).segments.length = 2 ∧
    (db.compactOldSegments).segments.getLast? = db.segments.getLast? ∧
    ∀ s, (db.segments.dropLast).getLast? = some s →
      ∀ p ∈ s.keyIndex, ∃ t, (db.compactOldSegments).segments.head? = some t ∧
        ∃ v, lastValue t.file p.1 = some v := by
  obtain ⟨_, _, _, _, c5, c6, _, ccond⟩ := compact_spec db h hlen
  obtain ⟨_, ⟨t, ht, htv⟩, _⟩ := ccond hg
  refine ⟨c6, c5, ?_⟩
  intro s hs p hp
  refine ⟨t, ht, ?_⟩
  rw [htv p.1]
  have hsmem : s ∈ db.segments := mem_of_mem_dropLast (mem_of_getLast? hs)
  have hsOk : s.Ok := h.2.1 s hsmem
  obtain ⟨v, hv1⟩ := lastValue_of_offsetOfLast s.file p.1 p.2 (hsOk.1 p hp)
  obtain ⟨r, hr, hrk⟩ := (lastValue_some_iff _ _).mp ⟨v, hv1⟩
  exact (lastValue_some_iff _ _).mpr
    ⟨r, mem_segsRecs (mem_of_getLast? hs) hr, hrk⟩

def db5w : Db :=
  ⟨[⟨0, [([7], 0)], [([7], [8])]⟩, ⟨1, [([9], 0)], [([9], [4])]⟩, ⟨2, [], []⟩],
    0, 50, 3, false⟩

theorem C5_witness :
    db5w.Inv ∧ db5w.Good ∧ 3 ≤ db5w.segments.length ∧
    ((db5w.compactOldSegments).segments.length = 2 ∧
     (db5w.compactOldSegments).segments.getLast? = db5w.segments.getLast? ∧
     ∀ s, (db5w.segments.dropLast).getLast? = some s →
       ∀ p ∈ s.keyIndex, ∃ t, (db5w.compactOldSegments).segments.head? = some t ∧
         ∃ v, lastValue t.file p.1 = some v) :=
  ⟨by decide, by decide, by decide,
    C5_compaction_shape db5w (by decide) (by decide) (by decide)⟩

/-- A store whose most recently frozen segment holds an oversized record
of key `[1]` shadowing a small record of `[1]` in the oldest segment. -/
def db6cx : Db :=
  ⟨[⟨0, [([1], 0)], [([1], [6])]⟩, ⟨1, [([1], 0)], [([1], List.replicate 5000 0)]⟩,
    ⟨2, [], []⟩], 0, 20000, 3, false⟩

theorem readFromSegment_db6 : readFromSegment [([1], [6])] 0 = Except.ok [6] :=
  readFromSegment_single [1] [6] (by decide)

/-- One compaction pass on `db6cx`: the oversized record of `[1]` cannot
be read back, so the pass skips it (without marking the key as written)
and consolidates the older, readable record instead. -/
theorem db6cx_compact : db6cx.compactOldSegments =
    ⟨[⟨3, [([1], 0)], [([1], [6])]⟩, ⟨2, [], []⟩], 0, 20000, 4, false⟩ := by
  have hs1 : compactSegStep ⟨[], [], 0, []⟩
      ⟨1, [([1], 0)], [([1], List.replicate 5000 0)]⟩ = ⟨[], [], 0, []⟩ := by
    show List.foldl (compactEntryStep [([1], List.replicate 5000 0)]) ⟨[], [], 0, []⟩
      [([1], 0)] = ⟨[], [], 0, []⟩
    rw [List.foldl_cons, List.foldl_nil]
    unfold compactEntryStep
    rw [if_neg (show ¬ ([1] : GoStr) ∈ (⟨[], [], 0, []⟩ : CState).written from by decide)]
    rw [show (([1], 0) : GoStr × Nat).2 = 0 from rfl, readFromSegment_big5000]
  have hs0 : compactSegStep ⟨[], [], 0, []⟩ ⟨0, [([1], 0)], [([1], [6])]⟩ =
      ⟨[([1], [6])], [([1], 0)], 0 + calculateEntryLength [1] [6], [[1]]⟩ := by
    show List.foldl (compactEntryStep [([1], [6])]) ⟨[], [], 0, []⟩ [([1], 0)] = _
    rw [List.foldl_cons, List.foldl_nil]
    unfold compactEntryStep
    rw [if_neg (show ¬ ([1] : GoStr) ∈ (⟨[], [], 0, []⟩ : CState).written from by decide)]
    rw [show (([1], 0) : GoStr × Nat).2 = 0 from rfl, readFromSegment_db6]
    rfl
  unfold Db.compactOldSegments
  rw [if_neg (show ¬ db6cx.segments.length < 3 from by decide)]
  simp only [show ({ db6cx with segmentCounter := db6cx.segmentCounter + 1 } :
    Db).segments.getLast? = some ⟨2, [], []⟩ from rfl]
  simp only [show (({ db6cx with segmentCounter := db6cx.segmentCounter + 1 } :
      Db).segments.take (({ db6cx with segmentCounter := db6cx.segmentCounter + 1 } :
      Db).segments.length - 1)).reverse =
    [⟨1, [([1], 0)], [([1], List.replicate 5000 0)]⟩, ⟨0, [([1], 0)], [([1], [6])]⟩]
    from rfl]
  rw [List.foldl_cons, List.foldl_cons, List.foldl_nil, hs1, hs0]
  rfl

/-- Claim C6, counterexample: on `db6cx`, whose key `[1]` is indexed both
before and after the pass, `Get` does not return the same result across
the pass: before it, the newest-first lookup finds the oversized record
and fails with the incomplete-value-read error; after it, the oversized
record has been silently dropped and `Get` returns the OLDER value `[6]`
— neither the same result, nor the most recent value at compaction
start.  The state satisfies the reachable-state invariant. -/
theorem C6_counterexample :
    db6cx.Inv ∧
    (db6cx.findKeyLocation [1]).isSome = true ∧
    ((db6cx.compactOldSegments).findKeyLocation [1]).isSome = true ∧
    db6cx.get [1] = Except.error DbError.corruptRecord ∧
    (db6cx.compactOldSegments).get [1] = Except.ok [6] := by
  have hbefore : db6cx.get [1] = Except.error DbError.corruptRecord := by
    have hfind : db6cx.findKeyLocation [1] =
        some (⟨1, [([1], 0)], [([1], List.replicate 5000 0)]⟩, 0) := rfl
    simp only [Db.get, hfind, readFromSegment_big5000, dbErrOfRV]
  have hafter : (db6cx.compactOldSegments).get [1] = Except.ok [6] := by
    rw [db6cx_compact]
    have hfind : (⟨[⟨3, [([1], 0)], [([1], [6])]⟩, ⟨2, [], []⟩],
        0, 20000, 4, false⟩ : Db).findKeyLocation [1] =
        some (⟨3, [([1], 0)], [([1], [6])]⟩, 0) := rfl
    simp only [Db.get, hfind, readFromSegment_db6]
  refine ⟨by decide, rfl, ?_, hbefore, hafter⟩
  rw [db6cx_compact]
  rfl

/-- Claim C6 (amended): compaction is transparent to reads on every store
satisfying the reachable-state invariant whose records all fit the bufio
buffer — `Get` returns the same result for every key after a compaction
pass as before it (in particular for every key whose index entry exists
both before and after), namely the most recent value for that key at
compaction start.  No segment-count hypothesis is needed: a pass on
fewer than three segments is a no-op.  Without the buffer bound the
property fails (`C6_counterexample`). -/
theorem C6_compaction_transparent (db : Db) (h : db.Inv) (hg : db.Good) (k : GoStr) :
    (db.compactOldSegments).get k = db.get k := by
  rcases Nat.lt_or_ge db.segments.length 3 with h3 | h3
  · rw [show db.compactOldSegments = db from by
      unfold Db.compactOldSegments
      rw [if_pos h3]]
  · obtain ⟨c1, _, _, _, _, _, _, ccond⟩ := compact_spec db h h3
    obtain ⟨cG, _, c8⟩ := ccond hg
    rw [Db.get_eq_view _ c1 cG k, Db.get_eq_view _ h hg k, c8 k]

def db6w : Db :=
  ⟨[⟨0, [([1], 0)], [([1], [5])]⟩, ⟨1, [([2], 0)], [([2], [6])]⟩, ⟨2, [], []⟩],
    0, 200, 3, false⟩

theorem C6_witness :
    db6w.Inv ∧ db6w.Good ∧ (db6w.compactOldSegments).get [2] = db6w.get [2] :=
  ⟨by decide, by decide, C6_compaction_transparent db6w (by decide) (by decide) [2]⟩

/-- Claim C7, counterexample: after `Close`, a `Put` does fail, but with
the I/O error produced by operating on the closed active file — not with
a dedicated store-closed error, which no code path produces. -/
theorem C7_counterexample :
    (Db.create [] 100).close.put [1] [2] = Except.error DbError.ioError ∧
    DbError.ioError ≠ DbError.storeClosed :=
  ⟨rfl, by decide⟩

/-- Claim C7 (amended): after `Close` begins, every subsequent `Put` fails
— `Stat` on the closed active file returns an I/O error, which `Put`
propagates; there is no dedicated `StoreClosed` error in the code. -/
theorem C7_put_after_close_fails (db : Db) (key value : GoStr) :
    (db.close).put key value = Except.error DbError.ioError := rfl

/-- A segment recovered from a directory containing `current-data0`. -/
def recoveredSeg : Segment := ⟨0, [([1], 0)], [([1], [2])]⟩

/-- Claim C8, code evidence: on open, `segmentCounter` starts at zero
regardless of the recovered files, so the fresh active segment created by
`initializeNewSegment` is named `current-data0` — the same name as the
recovered segment — and is opened with `O_APPEND` on the recovered file.
The claim (unique, monotonically increasing suffixes; writes never append
to a recovered file) states the spec's intent; the code violates it. -/
theorem C8_counter_reuses_suffix :
    ((Db.create [recoveredSeg] 100).segments.getLast?.map Segment.suffix) = some 0 ∧
    recoveredSeg.suffix = 0 ∧
    0 ∈ [recoveredSeg].map Segment.suffix :=
  ⟨rfl, rfl, by decide⟩
